import Mathlib

/-!
Shallow embedding of the beam-calculator core (src/src/App.jsx) over exact
rational arithmetic.  JavaScript numbers are modelled as `ℚ`, arrays as
`List ℚ`, and the in-place matrix updates of the source as pure state
passing.  Indexed for-loops over arrays are rendered with `mapIdxFrom`
(an indexed map starting at a given counter) and folds over index ranges.
-/

abbrev Vec := List ℚ
abbrev Mat := List (List ℚ)

/-- Read entry `i` of a vector, 0 when out of range (arrays of numbers). -/
def getv (b : Vec) (i : ℕ) : ℚ := b.getD i 0

/-- Read entry `(i, j)` of a matrix, 0 when out of range. -/
def getm (a : Mat) (i j : ℕ) : ℚ := (a.getD i []).getD j 0

/-- Indexed map carrying the loop counter, used to render loops of the form
`for (j = ...; j < size; j++) row[j] = f(j, row[j])`. -/
def mapIdxFrom (f : ℕ → α → β) (k : ℕ) : List α → List β
  | [] => []
  | x :: xs => f k x :: mapIdxFrom f (k + 1) xs

/-- Swap the entries at positions `i` and `j`, used for the destructuring
swap `[a[i], a[maxRow]] = [a[maxRow], a[i]]` of the source. -/
def swapIdx [Inhabited α] (l : List α) (i j : ℕ) : List α :=
  (l.set i (l.getD j default)).set j (l.getD i default)

/-- Sum of `f 0 + ... + f (n - 1)`, used to render `row.reduce` loops. -/
def sumIdx (n : ℕ) (f : ℕ → ℚ) : ℚ := ∑ j in Finset.range n, f j

/-- Source `uniqueSorted`: de-duplicate and sort ascending.  The source
builds a `Set` (keeping distinct values) and then sorts with the numeric
comparator; since the result is a sorted list of the distinct input values,
it is rendered as deduplication followed by sorting. -/
def uniqueSorted (values : Vec) : Vec :=
  List.insertionSort (· ≤ ·) values.dedup

/-- Source `beamElementStiffness`: the 4 by 4 local Euler-Bernoulli
stiffness matrix for modulus `E`, second moment `I` and length `L`. -/
def beamElementStiffness (E I L : ℚ) : Mat :=
  let factor := E * I / L ^ 3
  [ [12 * factor, 6 * L * factor, -12 * factor, 6 * L * factor],
    [6 * L * factor, 4 * L * L * factor, -6 * L * factor, 2 * L * L * factor],
    [-12 * factor, -6 * L * factor, 12 * factor, -6 * L * factor],
    [6 * L * factor, 2 * L * L * factor, -6 * L * factor, 4 * L * L * factor] ]

/-- Pivot-row search of the source solver: starting from `maxRow = i`,
scan `k = i+1 .. n-1` and keep `k` whenever `|a[k][i]| > |a[maxRow][i]|`. -/
def pivotRow (a : Mat) (i n : ℕ) : ℕ :=
  (List.range' (i + 1) (n - (i + 1))).foldl
    (fun maxRow k => if |getm a k i| > |getm a maxRow i| then k else maxRow) i

/-- One iteration of the elimination loop of `solveLinearSystem`
(pivot search, row swap, substitute `1e-12` for a zero pivot, divide the
pivot row, then eliminate column `i` from every other row). -/
def elimStep (n : ℕ) (st : Mat × Vec) (i : ℕ) : Mat × Vec :=
  let a0 := st.1
  let b0 := st.2
  let m := pivotRow a0 i n
  let a1 := if m = i then a0 else swapIdx a0 i m
  let b1 := if m = i then b0 else swapIdx b0 i m
  let pivot := if getm a1 i i = 0 then 1 / 10 ^ 12 else getm a1 i i
  let rowi := mapIdxFrom (fun j v => if i ≤ j then v / pivot else v) 0 (a1.getD i [])
  let a2 := a1.set i rowi
  let b2 := b1.set i (getv b1 i / pivot)
  let a3 := mapIdxFrom (fun k row =>
    if k = i then row
    else mapIdxFrom (fun j v => if i ≤ j then v - getm a2 k i * getv rowi j else v) 0 row) 0 a2
  let b3 := mapIdxFrom (fun k v =>
    if k = i then v else v - getm a2 k i * getv b2 i) 0 b2
  (a3, b3)

/-- State of the elimination after the first `i` iterations of the loop. -/
def elimState (matrix : Mat) (vector : Vec) (i : ℕ) : Mat × Vec :=
  (List.range i).foldl (elimStep vector.length) (matrix, vector)

/-- Source `solveLinearSystem`: run the elimination loop for
`i = 0 .. size-1` and return the transformed right-hand side. -/
def solveLinearSystem (matrix : Mat) (vector : Vec) : Vec :=
  (elimState matrix vector vector.length).2

/-- The pivot value selected (after the row swap) at iteration `i`. -/
def stepPivot (n : ℕ) (st : Mat × Vec) (i : ℕ) : ℚ :=
  let a0 := st.1
  let m := pivotRow a0 i n
  getm (if m = i then a0 else swapIdx a0 i m) i i

/-- The elimination never meets a zero pivot: at every iteration the
selected pivot is nonzero.  Per the specification this is the pivot-based
characterisation of a nonsingular system. -/
def NoZeroPivot (matrix : Mat) (vector : Vec) : Prop :=
  ∀ i < vector.length, stepPivot vector.length (elimState matrix vector i) i ≠ 0

/-- Support type options of the source (`fixed`, `pinned`, `roller`, `free`). -/
inductive SupportType
  | fixed
  | pinned
  | roller
  | free
deriving DecidableEq, Repr

/-- A support: position along the beam and its type. -/
structure Support where
  position : ℚ
  type : SupportType
deriving DecidableEq, Repr

/-- A point load: position and magnitude (downward positive). -/
structure PointLoad where
  position : ℚ
  magnitude : ℚ
deriving DecidableEq, Repr

/-- A uniformly distributed load over `[start, endP]` with the given
intensity (the source field `end` is rendered `endP`). -/
structure Udl where
  start : ℚ
  endP : ℚ
  intensity : ℚ
deriving DecidableEq, Repr

/-- The argument record of `assembleBeamModel`. -/
structure BeamInput where
  span : ℚ
  E : ℚ
  I : ℚ
  supports : List Support
  pointLoads : List PointLoad
  udls : List Udl

/-- Node positions of the mesh: `uniqueSorted` applied to 0, the span,
every support position, every point-load position, and the start and end
of every distributed load (lines 73-79 of the source). -/
def modelNodePositions (inp : BeamInput) : Vec :=
  uniqueSorted ([0, inp.span]
    ++ inp.supports.map (fun s => s.position)
    ++ inp.pointLoads.map (fun l => l.position)
    ++ inp.udls.flatMap (fun l => [l.start, l.endP]))

/-- Number of degrees of freedom: two per node. -/
def modelDofCount (inp : BeamInput) : ℕ := (modelNodePositions inp).length * 2

/-- The global DOF indices of element `e`: `[2e, 2e+1, 2(e+1), 2(e+1)+1]`. -/
def dofMap (e : ℕ) : List ℕ := [2 * e, 2 * e + 1, 2 * (e + 1), 2 * (e + 1) + 1]

/-- Point update of the global stiffness matrix, rendering
`K[p][q] += v` with the matrix kept as a function of its indices. -/
def addK (K : ℕ → ℕ → ℚ) (p q : ℕ) (v : ℚ) : ℕ → ℕ → ℚ :=
  fun r c => if r = p ∧ c = q then K r c + v else K r c

/-- Point update of the global force vector, rendering `F[p] += v`. -/
def addF (F : ℕ → ℚ) (p : ℕ) (v : ℚ) : ℕ → ℚ :=
  fun q => if q = p then F q + v else F q

/-- Scatter-add of the local 4 by 4 matrix into the global stiffness:
`for i in 0..3: for j in 0..3: K[dofMap[i]][dofMap[j]] += kLocal[i][j]`. -/
def scatterElement (K : ℕ → ℕ → ℚ) (e : ℕ) (kLocal : Mat) : ℕ → ℕ → ℚ :=
  [0, 1, 2, 3].foldl (fun K1 i =>
    [0, 1, 2, 3].foldl (fun K2 j =>
      addK K2 ((dofMap e).getD i 0) ((dofMap e).getD j 0) (getm kLocal i j)) K1) K

/-- Effective distributed intensity on the element `[x1, x2]`: the sum of
the intensities of the loads with `start <= x1 && end >= x2`
(lines 102-104 of the source). -/
def udlForElement (udls : List Udl) (x1 x2 : ℚ) : ℚ :=
  (udls.filter (fun load => load.start ≤ x1 ∧ x2 ≤ load.endP)).foldl
    (fun sum load => sum + load.intensity) 0

/-- Equivalent nodal load vector of a full-element distributed load
(lines 108-113 of the source). -/
def eqForces (w L : ℚ) : Vec :=
  [w * L / 2, w * L * L / 12, w * L / 2, -w * L * L / 12]

/-- Add the equivalent nodal loads at the four element DOFs:
`for i in 0..3: F[dofMap[i]] += eqForces[i]`. -/
def addEqForces (F : ℕ → ℚ) (e : ℕ) (w L : ℚ) : ℕ → ℚ :=
  ((dofMap e).zip (eqForces w L)).foldl (fun F1 pv => addF F1 pv.1 pv.2) F

/-- Update of the force vector for one element: when the effective
intensity is nonzero, add the equivalent nodal load vector
(lines 106-117 of the source). -/
def elementFUpdate (F : ℕ → ℚ) (e : ℕ) (udls : List Udl) (x1 x2 L : ℚ) : ℕ → ℚ :=
  if udlForElement udls x1 x2 ≠ 0 then addEqForces F e (udlForElement udls x1 x2) L else F

/-- Body of the element loop of `assembleBeamModel` (lines 87-118): for
one element, scatter its stiffness and add its equivalent nodal loads,
skipping degenerate elements with `L <= 0`. -/
def elementStep (E I : ℚ) (udls : List Udl) (pos : Vec)
    (KF : (ℕ → ℕ → ℚ) × (ℕ → ℚ)) (e : ℕ) : (ℕ → ℕ → ℚ) × (ℕ → ℚ) :=
  let x1 := getv pos e
  let x2 := getv pos (e + 1)
  let L := x2 - x1
  if L ≤ 0 then KF
  else
    (scatterElement KF.1 e (beamElementStiffness E I L),
     elementFUpdate KF.2 e udls x1 x2 L)

/-- The element loop of `assembleBeamModel`: fold the element step over
all elements, starting from the zero matrix and zero vector. -/
def modelKF (inp : BeamInput) : (ℕ → ℕ → ℚ) × (ℕ → ℚ) :=
  let pos := modelNodePositions inp
  (List.range (pos.length - 1)).foldl
    (elementStep inp.E inp.I inp.udls pos)
    (fun _ _ => 0, fun _ => 0)

/-- The assembled global stiffness matrix, as a function of DOF indices. -/
def modelK (inp : BeamInput) : ℕ → ℕ → ℚ := (modelKF inp).1

/-- The global force vector after the point-load loop (lines 120-125):
for each point load found among the node positions, add its magnitude at
the vertical DOF of its node. -/
def modelF (inp : BeamInput) : ℕ → ℚ :=
  inp.pointLoads.foldl
    (fun F load =>
      match (modelNodePositions inp).findIdx? (fun x => x = load.position) with
      | some nodeIndex => addF F (nodeIndex * 2) load.magnitude
      | none => F)
    (modelKF inp).2

/-- The set of constrained DOF indices (lines 127-138): a fixed support
constrains both DOFs of its node, pinned and roller constrain the
vertical DOF, free constrains nothing; supports whose position is not a
node are skipped. -/
def modelConstrained (inp : BeamInput) : Finset ℕ :=
  inp.supports.foldl
    (fun s sup =>
      match (modelNodePositions inp).findIdx? (fun x => x = sup.position) with
      | none => s
      | some nodeIndex =>
        match sup.type with
        | SupportType.fixed => insert (nodeIndex * 2) (insert (nodeIndex * 2 + 1) s)
        | SupportType.pinned => insert (nodeIndex * 2) s
        | SupportType.roller => insert (nodeIndex * 2) s
        | SupportType.free => s)
    ∅

/-- The free DOF indices in increasing order (lines 140-148). -/
def modelFreeDofs (inp : BeamInput) : List ℕ :=
  (List.range (modelDofCount inp)).filter (fun i => i ∉ modelConstrained inp)

/-- The reduced stiffness matrix `K_ff` (line 150). -/
def modelReducedK (inp : BeamInput) : Mat :=
  (modelFreeDofs inp).map (fun r => (modelFreeDofs inp).map (fun c => modelK inp r c))

/-- The reduced force vector `F_f` (line 151). -/
def modelReducedF (inp : BeamInput) : Vec :=
  (modelFreeDofs inp).map (fun r => modelF inp r)

/-- The free-DOF displacements (lines 153-154): solve the reduced system
when free DOFs remain, otherwise the empty vector. -/
def modelFreeDisplacements (inp : BeamInput) : Vec :=
  if 0 < (modelFreeDofs inp).length
  then solveLinearSystem (modelReducedK inp) (modelReducedF inp)
  else []

/-- Scatter of the free displacements into the full vector, rendering
`freeDofs.forEach((dof, index) => displacements[dof] = free[index])`. -/
def scatterFrom (fd : Vec) (k : ℕ) (dofs : List ℕ) (d : Vec) : Vec :=
  match dofs with
  | [] => d
  | dof :: rest => scatterFrom fd (k + 1) rest (d.set dof (getv fd k))

/-- The full displacement vector (lines 156-159): zeros at constrained
DOFs, the solved values at free DOFs. -/
def modelDisplacements (inp : BeamInput) : Vec :=
  scatterFrom (modelFreeDisplacements inp) 0 (modelFreeDofs inp)
    (List.replicate (modelDofCount inp) 0)

/-- The reaction vector `R = K d - F` over all DOFs (lines 161-163). -/
def modelReactions (inp : BeamInput) : Vec :=
  (List.range (modelDofCount inp)).map (fun i =>
    sumIdx (modelDofCount inp) (fun j => modelK inp i j * getv (modelDisplacements inp) j)
      - modelF inp i)

/-- Result record of `findExtrema`. -/
structure Extrema where
  min : ℚ
  minX : ℚ
  max : ℚ
  maxX : ℚ
deriving DecidableEq, Repr

/-- Body of the `reduce` of `findExtrema`: update the running minimum and
then the running maximum, both with strict comparisons. -/
def extremaStep (acc : Extrema) (point : ℚ × ℚ) : Extrema :=
  let acc1 := if point.2 < acc.min then { acc with min := point.2, minX := point.1 } else acc
  if point.2 > acc1.max then { acc1 with max := point.2, maxX := point.1 } else acc1

/-- Source `findExtrema` (lines 243-272): scan a sampled series of
`(x, value)` pairs with strict comparisons, starting from the first
sample; the empty series gives the all-zero record. -/
def findExtrema (data : List (ℚ × ℚ)) : Extrema :=
  match data with
  | [] => { min := 0, minX := 0, max := 0, maxX := 0 }
  | d0 :: _ =>
    data.foldl extremaStep { min := d0.2, minX := d0.1, max := d0.2, maxX := d0.1 }

/-!
Heap model of `solveLinearSystem` for the frame-effect claim.  JavaScript
arrays are mutable objects: the heap is a list of number-array cells, and
an array value is a reference (index) into the heap.  The caller passes the
references of its matrix rows and of its vector; the solver first copies
them (`matrix.map((row) => row.slice())`, `vector.slice()`) into freshly
allocated cells and mutates only those.
-/

abbrev Heap := List Vec

/-- Dereference a heap cell. -/
def hread (h : Heap) (r : ℕ) : Vec := h.getD r []

/-- Overwrite a heap cell. -/
def hwrite (h : Heap) (r : ℕ) (v : Vec) : Heap := h.set r v

/-- Matrix entry `(k, j)` through the heap: row `k` of the local list of
row references, then entry `j` of that cell. -/
def getmH (h : Heap) (rows : List ℕ) (k j : ℕ) : ℚ :=
  (hread h (rows.getD k 0)).getD j 0

/-- Pivot-row search through the heap. -/
def pivotRowH (h : Heap) (rows : List ℕ) (i n : ℕ) : ℕ :=
  (List.range' (i + 1) (n - (i + 1))).foldl
    (fun maxRow k => if |getmH h rows k i| > |getmH h rows maxRow i| then k else maxRow) i

/-- One iteration of the elimination loop acting on the heap: the row swap
exchanges the two row references of the local array `a`, the vector swap
exchanges two entries of the vector cell, and all remaining updates write
through the row and vector references. -/
def elimStepH (n : ℕ) (st : (List ℕ × ℕ) × Heap) (i : ℕ) : (List ℕ × ℕ) × Heap :=
  let rows0 := st.1.1
  let bref := st.1.2
  let h0 := st.2
  let m := pivotRowH h0 rows0 i n
  let rows := if m = i then rows0 else swapIdx rows0 i m
  let h1 := if m = i then h0 else hwrite h0 bref (swapIdx (hread h0 bref) i m)
  let pivot := if getmH h1 rows i i = 0 then 1 / 10 ^ 12 else getmH h1 rows i i
  let ri := rows.getD i 0
  let h2 := hwrite h1 ri
    (mapIdxFrom (fun j v => if i ≤ j then v / pivot else v) 0 (hread h1 ri))
  let h3 := hwrite h2 bref
    ((hread h2 bref).set i ((hread h2 bref).getD i 0 / pivot))
  let h4 := (List.range n).foldl
    (fun h k =>
      if k = i then h
      else
        let factor := getmH h rows k i
        let rk := rows.getD k 0
        let ha := hwrite h rk
          (mapIdxFrom (fun j v => if i ≤ j then v - factor * getmH h rows i j else v) 0
            (hread h rk))
        hwrite ha bref
          ((hread ha bref).set k ((hread ha bref).getD k 0 - factor * (hread ha bref).getD i 0)))
    h3
  ((rows, bref), h4)

/-- Heap-model `solveLinearSystem`: copy the matrix rows and the vector
into fresh cells, run the elimination there, and return the final heap
together with the value of the (copied) right-hand side. -/
def solveLinearSystemH (h : Heap) (mrows : List ℕ) (vref : ℕ) : Heap × Vec :=
  let size := (hread h vref).length
  let copyRows := (List.range mrows.length).map (fun t => h.length + t)
  let bref := h.length + mrows.length
  let h1 := h ++ mrows.map (fun r => hread h r) ++ [hread h vref]
  let fin := (List.range size).foldl (elimStepH size) ((copyRows, bref), h1)
  (fin.2, hread fin.2 fin.1.2)

/-- Stated from the specification for comparison: the claimed stiffness
pattern, the scalar `E I / L^3` times the matrix
`[[12, 6L, -12, 6L], [6L, 4L^2, -6L, 2L^2], [-12, -6L, 12, -6L], [6L, 2L^2, -6L, 4L^2]]`. -/
def stiffnessPattern (E I L : ℚ) : Mat :=
  [ [12, 6 * L, -12, 6 * L],
    [6 * L, 4 * L ^ 2, -6 * L, 2 * L ^ 2],
    [-12, -6 * L, 12, -6 * L],
    [6 * L, 2 * L ^ 2, -6 * L, 4 * L ^ 2] ].map
    (fun row => row.map (fun v => E * I / L ^ 3 * v))

/-- Concrete input with no supports at all: every DOF is free. -/
def exNoSupports : BeamInput :=
  { span := 1, E := 1, I := 1, supports := [], pointLoads := [], udls := [] }

/-- Concrete input with a negative span and no other data. -/
def exNegSpan : BeamInput :=
  { span := -1, E := 1, I := 1, supports := [], pointLoads := [], udls := [] }

/-- Concrete input with a single roller support only: the reduced system
is singular (rigid rotation remains). -/
def exRoller : BeamInput :=
  { span := 1, E := 1, I := 1,
    supports := [{ position := 0, type := SupportType.roller }],
    pointLoads := [], udls := [] }

/-- Concrete stable input: pinned at 0 and roller at the far end. -/
def exPinnedRoller : BeamInput :=
  { span := 1, E := 1, I := 1,
    supports := [{ position := 0, type := SupportType.pinned },
                 { position := 1, type := SupportType.roller }],
    pointLoads := [], udls := [] }

/-- Shape of an `n` by `n` linear system held as lists: `n` rows, each of
length `n`, and a right-hand side of length `n`. -/
def SysShape (n : ℕ) (st : Mat × Vec) : Prop :=
  st.1.length = n ∧ (∀ row ∈ st.1, row.length = n) ∧ st.2.length = n

/-- Columns `0 .. i-1` of the matrix agree with the identity matrix. -/
def PrefixId (n i : ℕ) (a : Mat) : Prop :=
  ∀ k < n, ∀ c < i, getm a k c = if k = c then 1 else 0

/-- The vector `x` satisfies every equation of the system. -/
def SolvesAll (n : ℕ) (st : Mat × Vec) (x : Vec) : Prop :=
  ∀ k < n, (∑ j in Finset.range n, getm st.1 k j * getv x j) = getv st.2 k

/-- Concrete sampled series with an interior minimum attained twice. -/
def exSeries : List (ℚ × ℚ) := [(0, 5), (1, 3), (2, 3), (3, 7)]

/-- Concrete mesh-test input of the specification: span 2000, a roller
support at 1500, and a distributed load over the whole span. -/
def exMesh : BeamInput :=
  { span := 2000, E := 10000, I := 1,
    supports := [{ position := 1500, type := SupportType.roller }],
    pointLoads := [{ position := 1000, magnitude := 5 }],
    udls := [{ start := 0, endP := 2000, intensity := 3 / 2 }] }

/-! Basic lemmas about the list helpers. -/

theorem getD_set_ne {α : Type _} (l : List α) (i j : ℕ) (v : α) (d : α) (h : i ≠ j) :
    (l.set i v).getD j d = l.getD j d := by
  simp [List.getD_eq_getElem?_getD, List.getElem?_set, h]

theorem getD_set_self {α : Type _} (l : List α) (i : ℕ) (v : α) (d : α) (h : i < l.length) :
    (l.set i v).getD i d = v := by
  simp [List.getD_eq_getElem?_getD, List.getElem?_set, h]

theorem length_mapIdxFrom {α β : Type _} (f : ℕ → α → β) (k : ℕ) (l : List α) :
    (mapIdxFrom f k l).length = l.length := by
  induction l generalizing k with
  | nil => rfl
  | cons x xs ih => simp [mapIdxFrom, ih]

theorem getD_mapIdxFrom_lt {α β : Type _} (f : ℕ → α → β) (k : ℕ) (l : List α) (j : ℕ)
    (d : β) (d' : α) (h : j < l.length) :
    (mapIdxFrom f k l).getD j d = f (k + j) (l.getD j d') := by
  induction l generalizing k j with
  | nil => simp at h
  | cons x xs ih =>
    cases j with
    | zero => simp [mapIdxFrom]
    | succ j =>
      simp only [mapIdxFrom, List.getD_cons_succ]
      rw [ih (k + 1) j (by simpa using Nat.lt_of_succ_lt_succ h)]
      ring_nf

theorem getD_mapIdxFrom_ge {α β : Type _} (f : ℕ → α → β) (k : ℕ) (l : List α) (j : ℕ)
    (d : β) (h : l.length ≤ j) :
    (mapIdxFrom f k l).getD j d = d := by
  apply List.getD_eq_default
  rw [length_mapIdxFrom]
  exact h

theorem length_swapIdx {α : Type _} [Inhabited α] (l : List α) (i j : ℕ) :
    (swapIdx l i j).length = l.length := by
  simp [swapIdx]

theorem getD_swapIdx {α : Type _} [Inhabited α] (l : List α) (i m k : ℕ) (d : α)
    (hi : i < l.length) (hm : m < l.length) :
    (swapIdx l i m).getD k d = l.getD (if k = m then i else if k = i then m else k) d := by
  unfold swapIdx
  by_cases hkm : k = m
  · subst hkm
    rw [getD_set_self _ _ _ _ (by simpa using hm), if_pos rfl]
    rw [List.getD_eq_getElem l default hi, List.getD_eq_getElem l d hi]
  · rw [getD_set_ne _ _ _ _ _ (fun h => hkm h.symm), if_neg hkm]
    by_cases hki : k = i
    · subst hki
      rw [getD_set_self _ _ _ _ hi, if_pos rfl]
      rw [List.getD_eq_getElem l default hm, List.getD_eq_getElem l d hm]
    · rw [getD_set_ne _ _ _ _ _ (fun h => hki h.symm), if_neg hki]

theorem mem_swapIdx {α : Type _} [Inhabited α] {l : List α} {i m : ℕ} {x : α}
    (hi : i < l.length) (hm : m < l.length) (hx : x ∈ swapIdx l i m) : x ∈ l := by
  unfold swapIdx at hx
  rcases List.mem_or_eq_of_mem_set hx with hx' | hx'
  · rcases List.mem_or_eq_of_mem_set hx' with hx'' | hx''
    · exact hx''
    · subst hx''
      rw [List.getD_eq_getElem l default hm]
      exact List.getElem_mem _
  · subst hx'
    rw [List.getD_eq_getElem l default hi]
    exact List.getElem_mem _

theorem getD_map_lt {α β : Type _} (f : α → β) (l : List α) (i : ℕ) (d : β) (d' : α)
    (h : i < l.length) : (l.map f).getD i d = f (l.getD i d') := by
  rw [List.getD_eq_getElem _ _ (by simpa using h), List.getD_eq_getElem _ _ h]
  simp

theorem getD_range_lt (n i : ℕ) (d : ℕ) (h : i < n) : (List.range n).getD i d = i := by
  rw [List.getD_eq_getElem _ _ (by simpa using h)]
  simp

theorem getD_replicate_zero (n q : ℕ) : (List.replicate n (0 : ℚ)).getD q 0 = 0 := by
  by_cases h : q < n
  · rw [List.getD_eq_getElem _ _ (by simpa using h)]
    simp
  · exact List.getD_eq_default _ _ (by simpa using Nat.le_of_not_lt h)

theorem map_sum_eq_sum_range (l : List ℕ) (g : ℕ → ℚ) :
    (l.map g).sum = ∑ r in Finset.range l.length, g (l.getD r 0) := by
  induction l with
  | nil => simp
  | cons x xs ih =>
    rw [List.map_cons, List.sum_cons, ih, List.length_cons, Finset.sum_range_succ']
    simp [add_comm]

theorem foldl_add_eq_sum {α : Type _} (f : α → ℚ) (l : List α) (s : ℚ) :
    l.foldl (fun a x => a + f x) s = s + (l.map f).sum := by
  induction l generalizing s with
  | nil => simp
  | cons x xs ih => rw [List.foldl_cons, ih, List.map_cons, List.sum_cons]; ring

/-! Lemmas about `uniqueSorted` and the mesh builder. -/

theorem uniqueSorted_perm (values : Vec) : (uniqueSorted values).Perm values.dedup :=
  List.perm_insertionSort _ _

theorem uniqueSorted_nodup (values : Vec) : (uniqueSorted values).Nodup :=
  (uniqueSorted_perm values).nodup_iff.mpr (List.nodup_dedup values)

theorem uniqueSorted_sorted_le (values : Vec) : (uniqueSorted values).Sorted (· ≤ ·) :=
  List.sorted_insertionSort _ _

theorem uniqueSorted_sorted_lt (values : Vec) : (uniqueSorted values).Sorted (· < ·) := by
  have h := (uniqueSorted_sorted_le values).and (uniqueSorted_nodup values)
  exact h.imp (fun hab => lt_of_le_of_ne hab.1 hab.2)

theorem mem_uniqueSorted (values : Vec) (x : ℚ) : x ∈ uniqueSorted values ↔ x ∈ values := by
  rw [(uniqueSorted_perm values).mem_iff, List.mem_dedup]

/-- C4: for every input, the node-position output of the mesh builder is a
strictly increasing, duplicate-free sequence containing 0, the span, every
support position, every point-load position, and every distributed-load
start and end. -/
theorem mesh_nodePositions_spec (inp : BeamInput) :
    (modelNodePositions inp).Sorted (· < ·)
    ∧ (modelNodePositions inp).Nodup
    ∧ (0 : ℚ) ∈ modelNodePositions inp
    ∧ inp.span ∈ modelNodePositions inp
    ∧ (∀ s ∈ inp.supports, s.position ∈ modelNodePositions inp)
    ∧ (∀ l ∈ inp.pointLoads, l.position ∈ modelNodePositions inp)
    ∧ (∀ u ∈ inp.udls, u.start ∈ modelNodePositions inp ∧ u.endP ∈ modelNodePositions inp) := by
  refine ⟨uniqueSorted_sorted_lt _, uniqueSorted_nodup _, ?_, ?_, ?_, ?_, ?_⟩
  · rw [modelNodePositions, mem_uniqueSorted]
    simp
  · rw [modelNodePositions, mem_uniqueSorted]
    simp
  · intro s hs
    rw [modelNodePositions, mem_uniqueSorted]
    simp only [List.mem_append, List.mem_map]
    exact Or.inl (Or.inl (Or.inr ⟨s, hs, rfl⟩))
  · intro l hl
    rw [modelNodePositions, mem_uniqueSorted]
    simp only [List.mem_append, List.mem_map]
    exact Or.inl (Or.inr ⟨l, hl, rfl⟩)
  · intro u hu
    constructor
    · rw [modelNodePositions, mem_uniqueSorted]
      simp only [List.mem_append, List.mem_flatMap]
      exact Or.inr ⟨u, hu, by simp⟩
    · rw [modelNodePositions, mem_uniqueSorted]
      simp only [List.mem_append, List.mem_flatMap]
      exact Or.inr ⟨u, hu, by simp⟩

/-- Witness for C4 at the mesh-test input of the specification. -/
theorem mesh_nodePositions_spec_witness :
    (modelNodePositions exMesh).Sorted (· < ·)
    ∧ (1500 : ℚ) ∈ modelNodePositions exMesh
    ∧ (1000 : ℚ) ∈ modelNodePositions exMesh
    ∧ (0 : ℚ) ∈ modelNodePositions exMesh ∧ (2000 : ℚ) ∈ modelNodePositions exMesh :=
  ⟨(mesh_nodePositions_spec exMesh).1,
   (mesh_nodePositions_spec exMesh).2.2.2.2.1
     { position := 1500, type := SupportType.roller } (by simp [exMesh]),
   (mesh_nodePositions_spec exMesh).2.2.2.2.2.1
     { position := 1000, magnitude := 5 } (by simp [exMesh]),
   ((mesh_nodePositions_spec exMesh).2.2.2.2.2.2
     { start := 0, endP := 2000, intensity := 3 / 2 } (by simp [exMesh])).1,
   ((mesh_nodePositions_spec exMesh).2.2.2.2.2.2
     { start := 0, endP := 2000, intensity := 3 / 2 } (by simp [exMesh])).2⟩

/-! Lemmas about the element stiffness matrix. -/

theorem beamElementStiffness_symm_aux (E I L : ℚ) :
    ∀ i < 4, ∀ j < 4,
      getm (beamElementStiffness E I L) i j = getm (beamElementStiffness E I L) j i := by
  intro i hi j hj
  interval_cases i <;> interval_cases j <;> simp [beamElementStiffness, getm]

/-- C7: for every length `L > 0`, the element stiffness provider returns
exactly `E I / L^3` times the standard Euler-Bernoulli coefficient matrix,
and this matrix is symmetric. -/
theorem beamElementStiffness_spec (E I L : ℚ) (_hL : 0 < L) :
    beamElementStiffness E I L = stiffnessPattern E I L
    ∧ ∀ i < 4, ∀ j < 4,
        getm (beamElementStiffness E I L) i j = getm (beamElementStiffness E I L) j i := by
  refine ⟨?_, beamElementStiffness_symm_aux E I L⟩
  simp only [beamElementStiffness, stiffnessPattern, List.map_cons, List.map_nil,
    List.cons.injEq, and_true]
  repeat' apply And.intro
  all_goals ring

/-- Witness for C7 at `E = 2`, `I = 3`, `L = 1`. -/
theorem beamElementStiffness_spec_witness :
    beamElementStiffness 2 3 1 = stiffnessPattern 2 3 1
    ∧ getm (beamElementStiffness 2 3 1) 0 1 = getm (beamElementStiffness 2 3 1) 1 0 :=
  ⟨(beamElementStiffness_spec 2 3 1 (by norm_num)).1,
   (beamElementStiffness_spec 2 3 1 (by norm_num)).2 0 (by norm_num) 1 (by norm_num)⟩

/-! Lemmas for the symmetry of the assembled global stiffness matrix. -/

theorem foldl_preserve {α β : Type _} (P : α → Prop) (f : α → β → α) (l : List β) (a : α)
    (ha : P a) (hf : ∀ x b, b ∈ l → P x → P (f x b)) : P (l.foldl f a) := by
  induction l generalizing a with
  | nil => exact ha
  | cons b bs ih =>
    exact ih (f a b) (hf a b (List.mem_cons_self _ _) ha)
      (fun x c hc => hf x c (List.mem_cons_of_mem _ hc))

theorem addK_apply (K : ℕ → ℕ → ℚ) (p q : ℕ) (v : ℚ) (r c : ℕ) :
    addK K p q v r c = K r c + (if r = p ∧ c = q then v else 0) := by
  unfold addK
  split <;> simp

theorem scatterElement_apply (K : ℕ → ℕ → ℚ) (e : ℕ) (kLocal : Mat) (p q : ℕ) :
    scatterElement K e kLocal p q
      = K p q + ∑ i in Finset.range 4, ∑ j in Finset.range 4,
          (if p = (dofMap e).getD i 0 ∧ q = (dofMap e).getD j 0 then getm kLocal i j else 0) := by
  simp only [scatterElement, List.foldl_cons, List.foldl_nil, addK_apply,
    Finset.sum_range_succ, Finset.sum_range_zero]
  ring

theorem scatterElement_symm (K : ℕ → ℕ → ℚ) (e : ℕ) (kLocal : Mat)
    (hK : ∀ p q, K p q = K q p)
    (hk : ∀ i < 4, ∀ j < 4, getm kLocal i j = getm kLocal j i) (p q : ℕ) :
    scatterElement K e kLocal p q = scatterElement K e kLocal q p := by
  rw [scatterElement_apply, scatterElement_apply, hK p q]
  congr 1
  rw [Finset.sum_comm]
  refine Finset.sum_congr rfl (fun i hi => Finset.sum_congr rfl (fun j hj => ?_))
  rw [hk i (Finset.mem_range.mp hi) j (Finset.mem_range.mp hj)]
  refine if_congr ?_ rfl rfl
  exact and_comm

/-- C8: the assembled global stiffness matrix is symmetric. -/
theorem modelK_symm (inp : BeamInput) (p q : ℕ) : modelK inp p q = modelK inp q p := by
  unfold modelK modelKF
  have h := foldl_preserve (fun KF : (ℕ → ℕ → ℚ) × (ℕ → ℚ) => ∀ r c, KF.1 r c = KF.1 c r)
    (elementStep inp.E inp.I inp.udls (modelNodePositions inp))
    (List.range ((modelNodePositions inp).length - 1))
    (fun _ _ => 0, fun _ => 0) (fun _ _ => rfl) ?_
  · exact h p q
  · intro KF e _ hKF r c
    unfold elementStep
    dsimp only
    split
    · exact hKF r c
    · exact scatterElement_symm KF.1 e _ hKF
        (beamElementStiffness_symm_aux inp.E inp.I _) r c

/-! Lemmas about the distributed-load contribution of one element. -/

theorem udlForElement_eq_sum (udls : List Udl) (x1 x2 : ℚ) :
    udlForElement udls x1 x2
      = ((udls.filter (fun u => u.start ≤ x1 ∧ x2 ≤ u.endP)).map
          (fun u => u.intensity)).sum := by
  unfold udlForElement
  simpa using foldl_add_eq_sum (fun u : Udl => u.intensity)
    (udls.filter (fun load => load.start ≤ x1 ∧ x2 ≤ load.endP)) 0

theorem udlForElement_not_covering (udls : List Udl) (x1 x2 : ℚ) (l : Udl)
    (h : ¬ (l.start ≤ x1 ∧ x2 ≤ l.endP)) :
    udlForElement (l :: udls) x1 x2 = udlForElement udls x1 x2 := by
  unfold udlForElement
  rw [List.filter_cons_of_neg]
  simpa using h

theorem elementFUpdate_dof (F : ℕ → ℚ) (e : ℕ) (udls : List Udl) (x1 x2 L : ℚ) :
    ∀ t < 4, elementFUpdate F e udls x1 x2 L ((dofMap e).getD t 0)
      = F ((dofMap e).getD t 0) + getv (eqForces (udlForElement udls x1 x2) L) t := by
  intro t ht
  unfold elementFUpdate
  by_cases hw : udlForElement udls x1 x2 = 0
  · rw [if_neg (by simpa using hw), hw]
    interval_cases t <;> simp [eqForces, getv, dofMap]
  · rw [if_pos hw]
    unfold addEqForces
    simp only [dofMap, eqForces, List.zip, List.zipWith, List.foldl_cons, List.foldl_nil]
    interval_cases t <;>
      · simp only [addF, List.getD_cons_zero, List.getD_cons_succ, getv]
        split_ifs <;> first | omega | ring
  
theorem elementFUpdate_other (F : ℕ → ℚ) (e : ℕ) (udls : List Udl) (x1 x2 L : ℚ)
    (q : ℕ) (hq : q ∉ dofMap e) : elementFUpdate F e udls x1 x2 L q = F q := by
  unfold elementFUpdate
  by_cases hw : udlForElement udls x1 x2 = 0
  · rw [if_neg (by simpa using hw)]
  · rw [if_pos hw]
    unfold addEqForces
    simp only [dofMap, eqForces, List.zip, List.zipWith, List.foldl_cons, List.foldl_nil]
    simp only [dofMap, List.mem_cons, List.not_mem_nil, or_false] at hq
    push_neg at hq
    simp [addF, hq.1, hq.2.1, hq.2.2.1, hq.2.2.2]

/-- C5: the load vector update of an element adds the equivalent nodal
loads `[wL/2, wL^2/12, wL/2, -wL^2/12]` at the four element DOFs, where
`w` sums the intensities of exactly the distributed loads whose interval
fully contains the element; a load only partially overlapping the element
contributes nothing, and no other DOF is touched. -/
theorem elementLoad_spec (F : ℕ → ℚ) (e : ℕ) (udls : List Udl) (x1 x2 L : ℚ) (l : Udl)
    (hl : ¬ (l.start ≤ x1 ∧ x2 ≤ l.endP)) :
    (∀ t < 4, elementFUpdate F e udls x1 x2 L ((dofMap e).getD t 0)
        = F ((dofMap e).getD t 0) + getv (eqForces (udlForElement udls x1 x2) L) t)
    ∧ eqForces (udlForElement udls x1 x2) L
        = [udlForElement udls x1 x2 * L / 2,
           udlForElement udls x1 x2 * L * L / 12,
           udlForElement udls x1 x2 * L / 2,
           -(udlForElement udls x1 x2 * L * L) / 12]
    ∧ udlForElement udls x1 x2
        = ((udls.filter (fun u => u.start ≤ x1 ∧ x2 ≤ u.endP)).map
            (fun u => u.intensity)).sum
    ∧ elementFUpdate F e (l :: udls) x1 x2 L = elementFUpdate F e udls x1 x2 L
    ∧ (∀ q, q ∉ dofMap e → elementFUpdate F e udls x1 x2 L q = F q) := by
  refine ⟨elementFUpdate_dof F e udls x1 x2 L, ?_, udlForElement_eq_sum udls x1 x2, ?_,
    elementFUpdate_other F e udls x1 x2 L⟩
  · simp [eqForces, neg_mul, neg_div]
  · unfold elementFUpdate
    rw [udlForElement_not_covering udls x1 x2 l hl]

/-- Witness for C5: one covering load of intensity 5 on the element
`[0, 2]`, and one load starting at 1 that only partially overlaps it. -/
theorem elementLoad_spec_witness :
    elementFUpdate (fun _ => 0) 0 [{ start := 0, endP := 2, intensity := 5 }] 0 2 2
        ((dofMap 0).getD 0 0)
      = 0 + getv (eqForces (udlForElement [{ start := 0, endP := 2, intensity := 5 }] 0 2) 2) 0
    ∧ elementFUpdate (fun _ => 0) 0
        ({ start := 1, endP := 2, intensity := 7 } :: [{ start := 0, endP := 2, intensity := 5 }]) 0 2 2
      = elementFUpdate (fun _ => 0) 0 [{ start := 0, endP := 2, intensity := 5 }] 0 2 2 :=
  ⟨(elementLoad_spec (fun _ => 0) 0 [{ start := 0, endP := 2, intensity := 5 }] 0 2 2
      { start := 1, endP := 2, intensity := 7 } (by norm_num)).1 0 (by norm_num),
   (elementLoad_spec (fun _ => 0) 0 [{ start := 0, endP := 2, intensity := 5 }] 0 2 2
      { start := 1, endP := 2, intensity := 7 } (by norm_num)).2.2.2.1⟩

/-! Lemmas about `findExtrema`. -/

theorem extremaStep_min (acc : Extrema) (p : ℚ × ℚ) :
    (extremaStep acc p).min = if p.2 < acc.min then p.2 else acc.min := by
  unfold extremaStep
  dsimp only
  split_ifs <;> rfl

theorem extremaStep_minX (acc : Extrema) (p : ℚ × ℚ) :
    (extremaStep acc p).minX = if p.2 < acc.min then p.1 else acc.minX := by
  unfold extremaStep
  dsimp only
  split_ifs <;> rfl

theorem extremaStep_max (acc : Extrema) (p : ℚ × ℚ) :
    (extremaStep acc p).max = if p.2 > acc.max then p.2 else acc.max := by
  unfold extremaStep
  dsimp only
  split_ifs <;> rfl

theorem extremaStep_maxX (acc : Extrema) (p : ℚ × ℚ) :
    (extremaStep acc p).maxX = if p.2 > acc.max then p.1 else acc.maxX := by
  unfold extremaStep
  dsimp only
  split_ifs <;> rfl

theorem extrema_fold_min (data : List (ℚ × ℚ)) :
    ∀ acc : Extrema,
      ((data.foldl extremaStep acc).min = acc.min
        ∧ (data.foldl extremaStep acc).minX = acc.minX
        ∧ ∀ p ∈ data, acc.min ≤ p.2)
      ∨ ((data.foldl extremaStep acc).min < acc.min
        ∧ (∃ l1 q l2, data = l1 ++ q :: l2
            ∧ q.2 = (data.foldl extremaStep acc).min
            ∧ q.1 = (data.foldl extremaStep acc).minX
            ∧ ∀ r ∈ l1, (data.foldl extremaStep acc).min < r.2)
        ∧ ∀ p ∈ data, (data.foldl extremaStep acc).min ≤ p.2) := by
  induction data with
  | nil => exact fun acc => Or.inl ⟨rfl, rfl, by simp⟩
  | cons p rest ih =>
    intro acc
    rw [List.foldl_cons]
    rcases ih (extremaStep acc p) with ⟨h1, h2, h3⟩ | ⟨h1, ⟨l1, q, l2, hd, hq2, hq1, hgt⟩, h4⟩
    · by_cases hc : p.2 < acc.min
      · refine Or.inr ⟨?_, ⟨[], p, rest, by simp, ?_, ?_, by simp⟩, ?_⟩
        · rw [h1, extremaStep_min, if_pos hc]; exact hc
        · rw [h1, extremaStep_min, if_pos hc]
        · rw [h2, extremaStep_minX, if_pos hc]
        · intro r hr
          rcases List.mem_cons.mp hr with hr | hr
          · subst hr
            rw [h1, extremaStep_min, if_pos hc]
          · have := h3 r hr
            rw [extremaStep_min, if_pos hc] at this
            rw [h1, extremaStep_min, if_pos hc]
            exact this
      · refine Or.inl ⟨?_, ?_, ?_⟩
        · rw [h1, extremaStep_min, if_neg hc]
        · rw [h2, extremaStep_minX, if_neg hc]
        · intro r hr
          rcases List.mem_cons.mp hr with hr | hr
          · subst hr; exact not_lt.mp hc
          · have := h3 r hr
            rw [extremaStep_min, if_neg hc] at this
            exact this
    · have hlt : (rest.foldl extremaStep (extremaStep acc p)).min < acc.min := by
        rcases lt_or_le p.2 acc.min with hc | hc
        · rw [extremaStep_min, if_pos hc] at h1
          exact h1.trans hc
        · rw [extremaStep_min, if_neg (not_lt.mpr hc)] at h1
          exact h1
      have hltp : (rest.foldl extremaStep (extremaStep acc p)).min < p.2 := by
        rcases lt_or_le p.2 acc.min with hc | hc
        · rw [extremaStep_min, if_pos hc] at h1
          exact h1
        · exact hlt.trans_le hc
      refine Or.inr ⟨hlt, ⟨p :: l1, q, l2, by rw [hd, List.cons_append], hq2, hq1, ?_⟩, ?_⟩
      · intro r hr
        rcases List.mem_cons.mp hr with hr | hr
        · subst hr; exact hltp
        · exact hgt r hr
      · intro r hr
        rcases List.mem_cons.mp hr with hr | hr
        · subst hr; exact hltp.le
        · exact h4 r hr

theorem extrema_fold_max (data : List (ℚ × ℚ)) :
    ∀ acc : Extrema,
      ((data.foldl extremaStep acc).max = acc.max
        ∧ (data.foldl extremaStep acc).maxX = acc.maxX
        ∧ ∀ p ∈ data, p.2 ≤ acc.max)
      ∨ (acc.max < (data.foldl extremaStep acc).max
        ∧ (∃ l1 q l2, data = l1 ++ q :: l2
            ∧ q.2 = (data.foldl extremaStep acc).max
            ∧ q.1 = (data.foldl extremaStep acc).maxX
            ∧ ∀ r ∈ l1, r.2 < (data.foldl extremaStep acc).max)
        ∧ ∀ p ∈ data, p.2 ≤ (data.foldl extremaStep acc).max) := by
  induction data with
  | nil => exact fun acc => Or.inl ⟨rfl, rfl, by simp⟩
  | cons p rest ih =>
    intro acc
    rw [List.foldl_cons]
    rcases ih (extremaStep acc p) with ⟨h1, h2, h3⟩ | ⟨h1, ⟨l1, q, l2, hd, hq2, hq1, hgt⟩, h4⟩
    · by_cases hc : p.2 > acc.max
      · refine Or.inr ⟨?_, ⟨[], p, rest, by simp, ?_, ?_, by simp⟩, ?_⟩
        · rw [h1, extremaStep_max, if_pos hc]; exact hc
        · rw [h1, extremaStep_max, if_pos hc]
        · rw [h2, extremaStep_maxX, if_pos hc]
        · intro r hr
          rcases List.mem_cons.mp hr with hr | hr
          · subst hr
            rw [h1, extremaStep_max, if_pos hc]
          · have := h3 r hr
            rw [extremaStep_max, if_pos hc] at this
            rw [h1, extremaStep_max, if_pos hc]
            exact this
      · refine Or.inl ⟨?_, ?_, ?_⟩
        · rw [h1, extremaStep_max, if_neg hc]
        · rw [h2, extremaStep_maxX, if_neg hc]
        · intro r hr
          rcases List.mem_cons.mp hr with hr | hr
          · subst hr; exact not_lt.mp hc
          · have := h3 r hr
            rw [extremaStep_max, if_neg hc] at this
            exact this
    · have hlt : acc.max < (rest.foldl extremaStep (extremaStep acc p)).max := by
        rcases lt_or_le acc.max p.2 with hc | hc
        · rw [extremaStep_max, if_pos hc] at h1
          exact hc.trans h1
        · rw [extremaStep_max, if_neg (not_lt.mpr hc)] at h1
          exact h1
      have hltp : p.2 < (rest.foldl extremaStep (extremaStep acc p)).max := by
        rcases lt_or_le acc.max p.2 with hc | hc
        · rw [extremaStep_max, if_pos hc] at h1
          exact h1
        · exact lt_of_le_of_lt hc hlt
      refine Or.inr ⟨hlt, ⟨p :: l1, q, l2, by rw [hd, List.cons_append], hq2, hq1, ?_⟩, ?_⟩
      · intro r hr
        rcases List.mem_cons.mp hr with hr | hr
        · subst hr; exact hltp
        · exact hgt r hr
      · intro r hr
        rcases List.mem_cons.mp hr with hr | hr
        · subst hr; exact hltp.le
        · exact h4 r hr

/-- C9: the extrema finder returns the minimum and maximum values of the
series with the x of the first sample attaining each (strict comparisons
keep the earlier x on ties), and the all-zero record on the empty series. -/
theorem findExtrema_spec (data : List (ℚ × ℚ)) :
    (data = [] → findExtrema data = { min := 0, minX := 0, max := 0, maxX := 0 })
    ∧ (data ≠ [] →
        (∀ p ∈ data, (findExtrema data).min ≤ p.2)
        ∧ data.find? (fun p => p.2 = (findExtrema data).min)
            = some ((findExtrema data).minX, (findExtrema data).min)
        ∧ (∀ p ∈ data, p.2 ≤ (findExtrema data).max)
        ∧ data.find? (fun p => p.2 = (findExtrema data).max)
            = some ((findExtrema data).maxX, (findExtrema data).max)) := by
  constructor
  · intro h
    subst h
    rfl
  · intro hne
    obtain ⟨d0, rest, rfl⟩ := List.exists_cons_of_ne_nil hne
    have hfe : findExtrema (d0 :: rest)
        = (d0 :: rest).foldl extremaStep
            { min := d0.2, minX := d0.1, max := d0.2, maxX := d0.1 } := rfl
    refine ⟨?_, ?_, ?_, ?_⟩
    · intro p hp
      rw [hfe]
      rcases extrema_fold_min (d0 :: rest)
          { min := d0.2, minX := d0.1, max := d0.2, maxX := d0.1 } with
        ⟨h1, _, h3⟩ | ⟨_, _, h4⟩
      · rw [h1]; exact h3 p hp
      · exact h4 p hp
    · rw [hfe]
      rcases extrema_fold_min (d0 :: rest)
          { min := d0.2, minX := d0.1, max := d0.2, maxX := d0.1 } with
        ⟨h1, h2, _⟩ | ⟨_, ⟨l1, q, l2, hd, hq2, hq1, hgt⟩, _⟩
      · rw [h1, h2]
        rw [List.find?_cons_of_pos _ (by simp)]
      · rw [hd] at hq2 hq1 hgt ⊢
        rw [List.find?_append]
        rw [List.find?_eq_none.mpr (fun x hx => by
          simp only [decide_eq_true_eq]
          exact ne_of_gt (hgt x hx))]
        rw [Option.none_or]
        rw [List.find?_cons_of_pos _ (by simp [hq2])]
        rw [← hq1, ← hq2]
    · intro p hp
      rw [hfe]
      rcases extrema_fold_max (d0 :: rest)
          { min := d0.2, minX := d0.1, max := d0.2, maxX := d0.1 } with
        ⟨h1, _, h3⟩ | ⟨_, _, h4⟩
      · rw [h1]; exact h3 p hp
      · exact h4 p hp
    · rw [hfe]
      rcases extrema_fold_max (d0 :: rest)
          { min := d0.2, minX := d0.1, max := d0.2, maxX := d0.1 } with
        ⟨h1, h2, _⟩ | ⟨_, ⟨l1, q, l2, hd, hq2, hq1, hgt⟩, _⟩
      · rw [h1, h2]
        rw [List.find?_cons_of_pos _ (by simp)]
      · rw [hd] at hq2 hq1 hgt ⊢
        rw [List.find?_append]
        rw [List.find?_eq_none.mpr (fun x hx => by
          simp only [decide_eq_true_eq]
          exact ne_of_lt (hgt x hx))]
        rw [Option.none_or]
        rw [List.find?_cons_of_pos _ (by simp [hq2])]
        rw [← hq1, ← hq2]

/-- Witness for C9 at a concrete series with a duplicated minimum value. -/
theorem findExtrema_spec_witness :
    (findExtrema exSeries).min ≤ ((1 : ℚ), (3 : ℚ)).2
    ∧ exSeries.find? (fun p => p.2 = (findExtrema exSeries).min)
        = some ((findExtrema exSeries).minX, (findExtrema exSeries).min)
    ∧ exSeries.find? (fun p => p.2 = (findExtrema exSeries).max)
        = some ((findExtrema exSeries).maxX, (findExtrema exSeries).max) :=
  ⟨((findExtrema_spec exSeries).2 (by decide)).1 (1, 3) (by norm_num [exSeries]),
   ((findExtrema_spec exSeries).2 (by decide)).2.1,
   ((findExtrema_spec exSeries).2 (by decide)).2.2.2⟩

/-! Lemmas about the linear solver. -/

theorem mem_mapIdxFrom {α β : Type _} {f : ℕ → α → β} {k : ℕ} {l : List α} {y : β}
    (hy : y ∈ mapIdxFrom f k l) : ∃ t x, x ∈ l ∧ y = f t x := by
  induction l generalizing k with
  | nil => simp [mapIdxFrom] at hy
  | cons x xs ih =>
    rcases List.mem_cons.mp hy with h | h
    · exact ⟨k, x, List.mem_cons_self _ _, h⟩
    · obtain ⟨t, x', hx', hy'⟩ := ih h
      exact ⟨t, x', List.mem_cons_of_mem _ hx', hy'⟩

theorem pivotRow_ge (a : Mat) (i n : ℕ) : i ≤ pivotRow a i n := by
  unfold pivotRow
  apply foldl_preserve (fun acc => i ≤ acc)
  · exact le_rfl
  · intro acc k hk hacc
    split
    · exact le_of_lt (lt_of_lt_of_le (Nat.lt_succ_self i) (List.mem_range'_1.mp hk).1)
    · exact hacc

theorem pivotRow_lt (a : Mat) (i n : ℕ) (hi : i < n) : pivotRow a i n < n := by
  unfold pivotRow
  apply foldl_preserve (fun acc => acc < n)
  · exact hi
  · intro acc k hk hacc
    split
    · have := (List.mem_range'_1.mp hk).2
      omega
    · exact hacc

theorem elimStep_b_length (n : ℕ) (st : Mat × Vec) (i : ℕ) :
    (elimStep n st i).2.length = st.2.length := by
  unfold elimStep
  dsimp only
  rw [length_mapIdxFrom, List.length_set]
  split
  · rfl
  · rw [length_swapIdx]

theorem solveLinearSystem_length (matrix : Mat) (vector : Vec) :
    (solveLinearSystem matrix vector).length = vector.length := by
  unfold solveLinearSystem elimState
  apply foldl_preserve (fun st : Mat × Vec => st.2.length = vector.length)
  · rfl
  · intro st k _ hst
    rw [elimStep_b_length]
    exact hst

theorem elimSwap_spec (n i m : ℕ) (a0 : Mat) (b0 : Vec) (hi : i < n) (him : i ≤ m)
    (hm : m < n) (ha0 : a0.length = n) (hrow0 : ∀ r ∈ a0, r.length = n)
    (hb0 : b0.length = n) (hp : PrefixId n i a0) :
    (if m = i then a0 else swapIdx a0 i m).length = n
    ∧ (∀ r ∈ (if m = i then a0 else swapIdx a0 i m), r.length = n)
    ∧ (if m = i then b0 else swapIdx b0 i m).length = n
    ∧ PrefixId n i (if m = i then a0 else swapIdx a0 i m)
    ∧ ∀ x, SolvesAll n
        (if m = i then a0 else swapIdx a0 i m, if m = i then b0 else swapIdx b0 i m) x
        ↔ SolvesAll n (a0, b0) x := by
  by_cases hmi : m = i
  · rw [if_pos hmi, if_pos hmi]
    exact ⟨ha0, hrow0, hb0, hp, fun x => Iff.rfl⟩
  · rw [if_neg hmi, if_neg hmi]
    have hia : i < a0.length := ha0 ▸ hi
    have hma : m < a0.length := ha0 ▸ hm
    have hib : i < b0.length := hb0 ▸ hi
    have hmb : m < b0.length := hb0 ▸ hm
    have hget : ∀ k c, getm (swapIdx a0 i m) k c
        = getm a0 (if k = m then i else if k = i then m else k) c := by
      intro k c
      unfold getm
      rw [getD_swapIdx a0 i m k [] hia hma]
    have hgetv : ∀ k, getv (swapIdx b0 i m) k
        = getv b0 (if k = m then i else if k = i then m else k) := by
      intro k
      unfold getv
      rw [getD_swapIdx b0 i m k 0 hib hmb]
    have hsg_lt : ∀ k, k < n → (if k = m then i else if k = i then m else k) < n := by
      intro k hk
      split_ifs <;> omega
    have hinv : ∀ k, (if (if k = m then i else if k = i then m else k) = m then i
        else if (if k = m then i else if k = i then m else k) = i then m
        else (if k = m then i else if k = i then m else k)) = k := by
      intro k
      split_ifs <;> omega
    refine ⟨by rw [length_swapIdx]; exact ha0,
      fun r hr => hrow0 r (mem_swapIdx hia hma hr),
      by rw [length_swapIdx]; exact hb0, ?_, ?_⟩
    · intro k hk c hc
      rw [hget k c, hp _ (hsg_lt k hk) c hc]
      refine if_congr ?_ rfl rfl
      constructor
      · intro h
        split_ifs at h <;> omega
      · intro h
        split_ifs <;> omega
    · intro x
      constructor
      · intro h k hk
        have h2 := h (if k = m then i else if k = i then m else k) (hsg_lt k hk)
        dsimp only at h2 ⊢
        rw [Finset.sum_congr rfl (fun j _ => by rw [hget]), hgetv] at h2
        rw [hinv k] at h2
        exact h2
      · intro h k hk
        dsimp only at h ⊢
        rw [Finset.sum_congr rfl (fun j _ => by rw [hget]), hgetv]
        exact h _ (hsg_lt k hk)

theorem elimNorm_spec (n i : ℕ) (a1 : Mat) (b1 : Vec) (p : ℚ) (hi : i < n)
    (ha1 : a1.length = n) (hrow1 : ∀ r ∈ a1, r.length = n) (hb1 : b1.length = n)
    (hp1 : PrefixId n i a1) (hnz : getm a1 i i ≠ 0) (hpv : p = getm a1 i i) :
    (a1.set i (mapIdxFrom (fun j v => if i ≤ j then v / p else v) 0 (a1.getD i []))).length = n
    ∧ (∀ r ∈ a1.set i (mapIdxFrom (fun j v => if i ≤ j then v / p else v) 0 (a1.getD i [])),
        r.length = n)
    ∧ (b1.set i (getv b1 i / p)).length = n
    ∧ PrefixId n i (a1.set i (mapIdxFrom (fun j v => if i ≤ j then v / p else v) 0 (a1.getD i [])))
    ∧ getm (a1.set i (mapIdxFrom (fun j v => if i ≤ j then v / p else v) 0 (a1.getD i []))) i i = 1
    ∧ ∀ x, SolvesAll n
        (a1.set i (mapIdxFrom (fun j v => if i ≤ j then v / p else v) 0 (a1.getD i [])),
         b1.set i (getv b1 i / p)) x
        ↔ SolvesAll n (a1, b1) x := by
  have hp0 : p ≠ 0 := hpv ▸ hnz
  have hia : i < a1.length := ha1 ▸ hi
  have hib : i < b1.length := hb1 ▸ hi
  have hmemrow : a1.getD i [] ∈ a1 := by
    rw [List.getD_eq_getElem _ _ hia]
    exact List.getElem_mem _
  have hrowlen : (a1.getD i []).length = n := hrow1 _ hmemrow
  have hget2 : ∀ k j, k ≠ i →
      getm (a1.set i (mapIdxFrom (fun j v => if i ≤ j then v / p else v) 0 (a1.getD i []))) k j
        = getm a1 k j := by
    intro k j hk
    unfold getm
    rw [getD_set_ne _ _ _ _ _ (fun h => hk h.symm)]
  have hgeti : ∀ j, j < n →
      getm (a1.set i (mapIdxFrom (fun j v => if i ≤ j then v / p else v) 0 (a1.getD i []))) i j
        = getm a1 i j / p := by
    intro j hj
    unfold getm
    rw [getD_set_self _ _ _ _ hia]
    rw [getD_mapIdxFrom_lt _ _ _ _ _ 0 (hrowlen ▸ hj)]
    simp only [Nat.zero_add]
    by_cases hij : i ≤ j
    · rw [if_pos hij]
    · rw [if_neg hij]
      have h0 : getm a1 i j = 0 := by
        rw [hp1 i hi j (Nat.lt_of_not_le hij)]
        rw [if_neg (by omega)]
      unfold getm at h0
      rw [h0, zero_div]
  refine ⟨by rw [List.length_set]; exact ha1, ?_,
    by rw [List.length_set]; exact hb1, ?_, ?_, ?_⟩
  · intro r hr
    rcases List.mem_or_eq_of_mem_set hr with h | h
    · exact hrow1 r h
    · rw [h, length_mapIdxFrom]
      exact hrowlen
  · intro k hk c hc
    by_cases hki : k = i
    · subst hki
      rw [hgeti c (lt_trans hc hi), hp1 k hk c hc,
        if_neg (by omega : ¬ k = c), zero_div]
    · rw [hget2 k c hki]
      exact hp1 k hk c hc
  · rw [hgeti i hi, ← hpv, div_self hp0]
  · intro x
    have hbi : getv (b1.set i (getv b1 i / p)) i = getv b1 i / p := by
      unfold getv
      rw [getD_set_self _ _ _ _ hib]
    have hbk : ∀ k, k ≠ i → getv (b1.set i (getv b1 i / p)) k = getv b1 k := by
      intro k hk
      unfold getv
      rw [getD_set_ne _ _ _ _ _ (fun h => hk h.symm)]
    have heq : ∀ k, k < n →
        (((∑ j in Finset.range n,
            getm (a1.set i (mapIdxFrom (fun j v => if i ≤ j then v / p else v) 0 (a1.getD i []))) k j
              * getv x j) = getv (b1.set i (getv b1 i / p)) k)
          ↔ ((∑ j in Finset.range n, getm a1 k j * getv x j) = getv b1 k)) := by
      intro k hk
      by_cases hki : k = i
      · subst hki
        rw [hbi]
        rw [Finset.sum_congr rfl (fun j hj => by
          rw [hgeti j (Finset.mem_range.mp hj), div_mul_eq_mul_div])]
        rw [← Finset.sum_div]
        exact (div_eq_div_iff hp0 hp0).trans (mul_left_inj' hp0)
      · rw [hbk k hki]
        rw [Finset.sum_congr rfl (fun j _ => by rw [hget2 k j hki])]
    exact ⟨fun h k hk => (heq k hk).mp (h k hk), fun h k hk => (heq k hk).mpr (h k hk)⟩

theorem elimSub_spec (n i : ℕ) (a2 : Mat) (b2 : Vec) (r : Vec) (hi : i < n)
    (ha2 : a2.length = n) (hrow2 : ∀ u ∈ a2, u.length = n) (hb2 : b2.length = n)
    (hp2 : PrefixId n i a2) (hdiag : getm a2 i i = 1)
    (hr : ∀ j, getv r j = getm a2 i j) :
    (mapIdxFrom (fun k row => if k = i then row
      else mapIdxFrom (fun j v => if i ≤ j then v - getm a2 k i * getv r j else v) 0 row)
      0 a2).length = n
    ∧ (∀ u ∈ mapIdxFrom (fun k row => if k = i then row
        else mapIdxFrom (fun j v => if i ≤ j then v - getm a2 k i * getv r j else v) 0 row)
        0 a2, u.length = n)
    ∧ (mapIdxFrom (fun k v => if k = i then v else v - getm a2 k i * getv b2 i) 0 b2).length = n
    ∧ PrefixId n (i + 1)
        (mapIdxFrom (fun k row => if k = i then row
          else mapIdxFrom (fun j v => if i ≤ j then v - getm a2 k i * getv r j else v) 0 row)
          0 a2)
    ∧ ∀ x, SolvesAll n
        (mapIdxFrom (fun k row => if k = i then row
          else mapIdxFrom (fun j v => if i ≤ j then v - getm a2 k i * getv r j else v) 0 row)
          0 a2,
         mapIdxFrom (fun k v => if k = i then v else v - getm a2 k i * getv b2 i) 0 b2) x
        ↔ SolvesAll n (a2, b2) x := by
  have hrowlen : ∀ k, k < n → (a2.getD k []).length = n := by
    intro k hk
    apply hrow2
    rw [List.getD_eq_getElem _ _ (ha2 ▸ hk)]
    exact List.getElem_mem _
  have hA3row : ∀ k, k < n →
      (mapIdxFrom (fun k row => if k = i then row
        else mapIdxFrom (fun j v => if i ≤ j then v - getm a2 k i * getv r j else v) 0 row)
        0 a2).getD k []
      = if k = i then a2.getD k []
        else mapIdxFrom (fun j v => if i ≤ j then v - getm a2 k i * getv r j else v) 0
          (a2.getD k []) := by
    intro k hk
    rw [getD_mapIdxFrom_lt _ _ _ _ _ [] (ha2 ▸ hk)]
    simp only [Nat.zero_add]
  have hA3i : ∀ j, getm (mapIdxFrom (fun k row => if k = i then row
      else mapIdxFrom (fun j v => if i ≤ j then v - getm a2 k i * getv r j else v) 0 row)
      0 a2) i j = getm a2 i j := by
    intro j
    have h1 : (mapIdxFrom (fun k row => if k = i then row
        else mapIdxFrom (fun j v => if i ≤ j then v - getm a2 k i * getv r j else v) 0 row)
        0 a2).getD i [] = a2.getD i [] := by
      rw [hA3row i hi, if_pos rfl]
    exact congrArg (fun row : Vec => row.getD j 0) h1
  have hA3k : ∀ k j, k < n → j < n → k ≠ i →
      getm (mapIdxFrom (fun k row => if k = i then row
        else mapIdxFrom (fun j v => if i ≤ j then v - getm a2 k i * getv r j else v) 0 row)
        0 a2) k j
      = getm a2 k j - getm a2 k i * getm a2 i j := by
    intro k j hk hj hki
    have h1 : (mapIdxFrom (fun k row => if k = i then row
        else mapIdxFrom (fun j v => if i ≤ j then v - getm a2 k i * getv r j else v) 0 row)
        0 a2).getD k []
        = mapIdxFrom (fun j v => if i ≤ j then v - getm a2 k i * getv r j else v) 0
            (a2.getD k []) := by
      rw [hA3row k hk, if_neg hki]
    refine (congrArg (fun row : Vec => row.getD j 0) h1).trans ?_
    dsimp only
    rw [getD_mapIdxFrom_lt _ _ _ _ _ 0 ((hrowlen k hk) ▸ hj)]
    simp only [Nat.zero_add]
    rw [hr j]
    by_cases hij : i ≤ j
    · rw [if_pos hij]
      rfl
    · rw [if_neg hij]
      have h0 : getm a2 i j = 0 := by
        rw [hp2 i hi j (Nat.lt_of_not_le hij), if_neg (by omega)]
      rw [h0, mul_zero, sub_zero]
      rfl
  have hB3i : getv (mapIdxFrom (fun k v => if k = i then v
      else v - getm a2 k i * getv b2 i) 0 b2) i = getv b2 i := by
    unfold getv
    rw [getD_mapIdxFrom_lt _ _ _ _ _ 0 (hb2 ▸ hi)]
    simp only [Nat.zero_add, eq_self_iff_true, if_true]
  have hB3k : ∀ k, k < n → k ≠ i →
      getv (mapIdxFrom (fun k v => if k = i then v
        else v - getm a2 k i * getv b2 i) 0 b2) k
      = getv b2 k - getm a2 k i * getv b2 i := by
    intro k hk hki
    unfold getv
    rw [getD_mapIdxFrom_lt _ _ _ _ _ 0 (hb2 ▸ hk)]
    simp only [Nat.zero_add, if_neg hki]
  refine ⟨by rw [length_mapIdxFrom]; exact ha2, ?_, by rw [length_mapIdxFrom]; exact hb2, ?_, ?_⟩
  · intro u hu
    obtain ⟨t, w, hw, hu'⟩ := mem_mapIdxFrom hu
    subst hu'
    by_cases hti : t = i
    · rw [if_pos hti]
      exact hrow2 w hw
    · rw [if_neg hti, length_mapIdxFrom]
      exact hrow2 w hw
  · intro k hk c hc
    by_cases hki : k = i
    · subst hki
      rw [hA3i c]
      rcases Nat.lt_succ_iff_lt_or_eq.mp hc with hc' | hc'
      · rw [hp2 k hk c hc']
      · subst hc'
        rw [hdiag, if_pos rfl]
    · rw [hA3k k c hk (lt_of_lt_of_le hc (Nat.succ_le_of_lt hi)) hki]
      rcases Nat.lt_succ_iff_lt_or_eq.mp hc with hc' | hc'
      · have h0 : getm a2 i c = 0 := by
          rw [hp2 i hi c hc', if_neg (by omega)]
        rw [h0, mul_zero, sub_zero]
        exact hp2 k hk c hc'
      · subst hc'
        rw [hdiag, mul_one, sub_self, if_neg hki]
  · intro x
    have hsumk : ∀ k, k < n → k ≠ i →
        (∑ j in Finset.range n,
          getm (mapIdxFrom (fun k row => if k = i then row
            else mapIdxFrom (fun j v => if i ≤ j then v - getm a2 k i * getv r j else v) 0 row)
            0 a2) k j * getv x j)
        = (∑ j in Finset.range n, getm a2 k j * getv x j)
          - getm a2 k i * (∑ j in Finset.range n, getm a2 i j * getv x j) := by
      intro k hk hki
      calc (∑ j in Finset.range n,
            getm (mapIdxFrom (fun k row => if k = i then row
              else mapIdxFrom (fun j v => if i ≤ j then v - getm a2 k i * getv r j else v) 0 row)
              0 a2) k j * getv x j)
          = ∑ j in Finset.range n,
              (getm a2 k j * getv x j - getm a2 k i * (getm a2 i j * getv x j)) := by
            refine Finset.sum_congr rfl (fun j hj => ?_)
            rw [hA3k k j hk (Finset.mem_range.mp hj) hki]
            ring
        _ = (∑ j in Finset.range n, getm a2 k j * getv x j)
            - ∑ j in Finset.range n, getm a2 k i * (getm a2 i j * getv x j) :=
            Finset.sum_sub_distrib
        _ = (∑ j in Finset.range n, getm a2 k j * getv x j)
            - getm a2 k i * ∑ j in Finset.range n, getm a2 i j * getv x j := by
            rw [Finset.mul_sum]
    constructor
    · intro h k hk
      have heqi : (∑ j in Finset.range n, getm a2 i j * getv x j) = getv b2 i := by
        have h2 := h i hi
        dsimp only at h2
        rw [Finset.sum_congr rfl (fun j _ => by rw [hA3i j]), hB3i] at h2
        exact h2
      dsimp only
      by_cases hki : k = i
      · subst hki
        exact heqi
      · have h2 := h k hk
        dsimp only at h2
        rw [hsumk k hk hki, hB3k k hk hki, heqi] at h2
        exact sub_left_inj.mp h2
    · intro h k hk
      have hOi := h i hi
      have hOk := h k hk
      dsimp only at hOi hOk
      dsimp only
      by_cases hki : k = i
      · subst hki
        rw [Finset.sum_congr rfl (fun j _ => by rw [hA3i j]), hB3i]
        exact hOk
      · rw [hsumk k hk hki, hB3k k hk hki, hOi, hOk]

theorem elimStep_spec (n : ℕ) (st : Mat × Vec) (i : ℕ) (hi : i < n)
    (hs : SysShape n st) (hp : PrefixId n i st.1) (hz : stepPivot n st i ≠ 0) :
    SysShape n (elimStep n st i)
    ∧ PrefixId n (i + 1) (elimStep n st i).1
    ∧ ∀ x, SolvesAll n (elimStep n st i) x ↔ SolvesAll n st x := by
  obtain ⟨a0, b0⟩ := st
  obtain ⟨ha0, hrow0, hb0⟩ := hs
  set m := pivotRow a0 i n with hmdef
  set a1 := if m = i then a0 else swapIdx a0 i m with ha1def
  set b1 := if m = i then b0 else swapIdx b0 i m with hb1def
  have hz' : getm a1 i i ≠ 0 := hz
  obtain ⟨hA1, hR1, hB1, hP1, hE1⟩ :=
    elimSwap_spec n i m a0 b0 hi (pivotRow_ge a0 i n) (pivotRow_lt a0 i n hi)
      ha0 hrow0 hb0 hp
  have hA1' : a1.length = n := hA1
  have hR1' : ∀ r ∈ a1, r.length = n := hR1
  have hB1' : b1.length = n := hB1
  have hP1' : PrefixId n i a1 := hP1
  set P := if getm a1 i i = 0 then (1 : ℚ) / 10 ^ 12 else getm a1 i i with hPdef
  set rowi := mapIdxFrom (fun j v => if i ≤ j then v / P else v) 0 (a1.getD i []) with hrowidef
  set a2 := a1.set i rowi with ha2def
  set b2 := b1.set i (getv b1 i / P) with hb2def
  obtain ⟨hA2, hR2, hB2, hP2, hD2, hE2⟩ :=
    elimNorm_spec n i a1 b1 P hi hA1' hR1' hB1' hP1' hz' (if_neg hz')
  have hA2' : a2.length = n := hA2
  have hR2' : ∀ r ∈ a2, r.length = n := hR2
  have hB2' : b2.length = n := hB2
  have hP2' : PrefixId n i a2 := hP2
  have hD2' : getm a2 i i = 1 := hD2
  have hia1 : i < a1.length := hA1' ▸ hi
  have hgr : ∀ j, getv rowi j = getm a2 i j := by
    intro j
    have h5 : a2.getD i [] = rowi := getD_set_self a1 i rowi [] hia1
    exact (congrArg (fun row : Vec => row.getD j 0) h5).symm
  obtain ⟨hA3, hR3, hB3, hP3, hE3⟩ :=
    elimSub_spec n i a2 b2 rowi hi hA2' hR2' hB2' hP2' hD2' hgr
  have hstep : elimStep n (a0, b0) i
      = (mapIdxFrom (fun k row => if k = i then row
          else mapIdxFrom (fun j v => if i ≤ j then v - getm a2 k i * getv rowi j else v) 0 row)
          0 a2,
         mapIdxFrom (fun k v => if k = i then v else v - getm a2 k i * getv b2 i) 0 b2) := rfl
  rw [hstep]
  exact ⟨⟨hA3, hR3, hB3⟩, hP3,
    fun x => (hE3 x).trans ((hE2 x).trans (hE1 x))⟩

theorem elimState_succ (matrix : Mat) (vector : Vec) (i : ℕ) :
    elimState matrix vector (i + 1)
      = elimStep vector.length (elimState matrix vector i) i := by
  unfold elimState
  rw [List.range_succ, List.foldl_append, List.foldl_cons, List.foldl_nil]

theorem elimState_invariant (matrix : Mat) (vector : Vec) (n : ℕ)
    (hn : vector.length = n) (ha : matrix.length = n) (hrow : ∀ r ∈ matrix, r.length = n)
    (hz : NoZeroPivot matrix vector) :
    ∀ i, i ≤ n → SysShape n (elimState matrix vector i)
      ∧ PrefixId n i (elimState matrix vector i).1
      ∧ ∀ x, SolvesAll n (elimState matrix vector i) x ↔ SolvesAll n (matrix, vector) x := by
  intro i
  induction i with
  | zero =>
    intro _
    refine ⟨⟨ha, hrow, hn⟩, ?_, fun x => Iff.rfl⟩
    intro k _ c hc
    omega
  | succ i ih =>
    intro hsi
    have hi : i < n := Nat.lt_of_succ_le hsi
    obtain ⟨hS, hP, hE⟩ := ih (le_of_lt hi)
    have hzp : stepPivot n (elimState matrix vector i) i ≠ 0 := by
      have h := hz i (hn ▸ hi)
      rwa [hn] at h
    rw [elimState_succ, hn]
    obtain ⟨hS', hP', hE'⟩ := elimStep_spec n (elimState matrix vector i) i hi hS hP hzp
    exact ⟨hS', hP', fun x => (hE' x).trans (hE x)⟩

theorem solveLinearSystem_solves (matrix : Mat) (vector : Vec) (n : ℕ)
    (hn : vector.length = n) (ha : matrix.length = n) (hrow : ∀ r ∈ matrix, r.length = n)
    (hz : NoZeroPivot matrix vector) :
    ∀ k, k < n →
      (∑ j in Finset.range n, getm matrix k j * getv (solveLinearSystem matrix vector) j)
        = getv vector k := by
  obtain ⟨hS, hP, hE⟩ := elimState_invariant matrix vector n hn ha hrow hz n le_rfl
  have hsv : solveLinearSystem matrix vector = (elimState matrix vector n).2 := by
    unfold solveLinearSystem
    rw [hn]
  have hsol : SolvesAll n (elimState matrix vector n) (elimState matrix vector n).2 := by
    intro k hk
    have hterm : ∀ j ∈ Finset.range n,
        getm (elimState matrix vector n).1 k j * getv (elimState matrix vector n).2 j
          = if k = j then getv (elimState matrix vector n).2 j else 0 := by
      intro j hj
      rw [hP k hk j (Finset.mem_range.mp hj)]
      split_ifs <;> simp
    rw [Finset.sum_congr rfl hterm, Finset.sum_ite_eq]
    rw [if_pos (Finset.mem_range.mpr hk)]
  have hfin := (hE (elimState matrix vector n).2).mp hsol
  intro k hk
  rw [hsv]
  exact hfin k hk

/-! Lemmas about the displacement scatter and the reduced system. -/

theorem scatterFrom_length (fd : Vec) (k : ℕ) (dofs : List ℕ) (d : Vec) :
    (scatterFrom fd k dofs d).length = d.length := by
  induction dofs generalizing k d with
  | nil => rfl
  | cons dof rest ih =>
    rw [scatterFrom, ih, List.length_set]

theorem scatterFrom_not_mem (fd : Vec) (k : ℕ) (dofs : List ℕ) (d : Vec) (q : ℕ)
    (hq : q ∉ dofs) : getv (scatterFrom fd k dofs d) q = getv d q := by
  induction dofs generalizing k d with
  | nil => rfl
  | cons dof rest ih =>
    rw [scatterFrom, ih _ _ (fun h => hq (List.mem_cons_of_mem _ h))]
    unfold getv
    rw [getD_set_ne _ _ _ _ _ (fun h => hq (by rw [← h]; exact List.mem_cons_self _ _))]

theorem scatterFrom_mem (fd : Vec) (k : ℕ) (dofs : List ℕ) (d : Vec)
    (hnd : dofs.Nodup) :
    ∀ t, t < dofs.length → dofs.getD t 0 < d.length →
      getv (scatterFrom fd k dofs d) (dofs.getD t 0) = getv fd (k + t) := by
  induction dofs generalizing k d with
  | nil =>
    intro t ht
    simp at ht
  | cons dof rest ih =>
    intro t ht hb
    cases t with
    | zero =>
      rw [List.getD_cons_zero] at hb ⊢
      rw [scatterFrom]
      rw [scatterFrom_not_mem _ _ _ _ _ (List.nodup_cons.mp hnd).1]
      unfold getv
      rw [getD_set_self _ _ _ _ hb, Nat.add_zero]
    | succ t =>
      rw [List.getD_cons_succ] at hb ⊢
      rw [scatterFrom]
      have hlen : rest.getD t 0 < (d.set dof (getv fd k)).length := by
        rw [List.length_set]
        exact hb
      rw [ih (k + 1) (d.set dof (getv fd k)) (List.nodup_cons.mp hnd).2 t
        (by simp only [List.length_cons] at ht; omega) hlen]
      congr 1
      omega

theorem sum_over_list (N : ℕ) (l : List ℕ) (g : ℕ → ℚ) (hnd : l.Nodup)
    (hsub : ∀ x ∈ l, x < N) (hzero : ∀ j, j < N → j ∉ l → g j = 0) :
    (∑ j in Finset.range N, g j) = ∑ t in Finset.range l.length, g (l.getD t 0) := by
  calc (∑ j in Finset.range N, g j)
      = ∑ j in l.toFinset, g j := by
        refine (Finset.sum_subset ?_ ?_).symm
        · intro x hx
          exact Finset.mem_range.mpr (hsub x (List.mem_toFinset.mp hx))
        · intro x hx hnx
          exact hzero x (Finset.mem_range.mp hx) (fun hmem => hnx (List.mem_toFinset.mpr hmem))
    _ = (l.map g).sum := List.sum_toFinset g hnd
    _ = ∑ t in Finset.range l.length, g (l.getD t 0) := map_sum_eq_sum_range l g

theorem modelFreeDofs_nodup (inp : BeamInput) : (modelFreeDofs inp).Nodup :=
  (List.nodup_range _).filter _

theorem modelFreeDofs_lt (inp : BeamInput) :
    ∀ d ∈ modelFreeDofs inp, d < modelDofCount inp := by
  intro d hd
  exact List.mem_range.mp (List.mem_of_mem_filter hd)

theorem modelReducedK_length (inp : BeamInput) :
    (modelReducedK inp).length = (modelFreeDofs inp).length := List.length_map _ _

theorem modelReducedK_rows (inp : BeamInput) :
    ∀ r ∈ modelReducedK inp, r.length = (modelFreeDofs inp).length := by
  intro r hr
  obtain ⟨x, _, rfl⟩ := List.mem_map.mp hr
  exact List.length_map _ _

theorem modelReducedF_length (inp : BeamInput) :
    (modelReducedF inp).length = (modelFreeDofs inp).length := List.length_map _ _

theorem getm_modelReducedK (inp : BeamInput) (r c : ℕ)
    (hr : r < (modelFreeDofs inp).length) (hc : c < (modelFreeDofs inp).length) :
    getm (modelReducedK inp) r c
      = modelK inp ((modelFreeDofs inp).getD r 0) ((modelFreeDofs inp).getD c 0) := by
  unfold getm modelReducedK
  rw [getD_map_lt _ _ _ _ 0 hr]
  rw [getD_map_lt _ _ _ _ 0 hc]

theorem getv_modelReducedF (inp : BeamInput) (r : ℕ)
    (hr : r < (modelFreeDofs inp).length) :
    getv (modelReducedF inp) r = modelF inp ((modelFreeDofs inp).getD r 0) := by
  unfold getv modelReducedF
  rw [getD_map_lt _ _ _ _ 0 hr]

/-- C6: the recovered reaction vector equals `K d - F` over all DOFs, and
when the elimination of the reduced system meets no zero pivot (the
nonsingular case, in exact arithmetic) every entry at a free DOF is zero. -/
theorem reactions_spec (inp : BeamInput) :
    ((modelReactions inp).length = modelDofCount inp
      ∧ ∀ i, i < modelDofCount inp → getv (modelReactions inp) i
          = sumIdx (modelDofCount inp)
              (fun j => modelK inp i j * getv (modelDisplacements inp) j) - modelF inp i)
    ∧ (NoZeroPivot (modelReducedK inp) (modelReducedF inp) →
        ∀ i ∈ modelFreeDofs inp, getv (modelReactions inp) i = 0) := by
  have hentry : ∀ i, i < modelDofCount inp → getv (modelReactions inp) i
      = sumIdx (modelDofCount inp)
          (fun j => modelK inp i j * getv (modelDisplacements inp) j) - modelF inp i := by
    intro i hi
    unfold modelReactions getv
    rw [getD_map_lt _ _ _ _ 0 (by simpa using hi)]
    rw [getD_range_lt _ _ _ hi]
  refine ⟨⟨by unfold modelReactions; rw [List.length_map, List.length_range], hentry⟩, ?_⟩
  intro hz i hi
  have hiN : i < modelDofCount inp := modelFreeDofs_lt inp i hi
  obtain ⟨t, ht, hti⟩ := List.mem_iff_getElem.mp hi
  have htd : (modelFreeDofs inp).getD t 0 = i := by
    rw [List.getD_eq_getElem _ _ ht]
    exact hti
  have hfd : modelFreeDisplacements inp
      = solveLinearSystem (modelReducedK inp) (modelReducedF inp) := by
    unfold modelFreeDisplacements
    rw [if_pos (List.length_pos.mpr (List.ne_nil_of_mem hi))]
  have hsolve := solveLinearSystem_solves (modelReducedK inp) (modelReducedF inp)
    (modelFreeDofs inp).length (modelReducedF_length inp) (modelReducedK_length inp)
    (modelReducedK_rows inp) hz
  have hd_mem : ∀ s, s < (modelFreeDofs inp).length →
      getv (modelDisplacements inp) ((modelFreeDofs inp).getD s 0)
        = getv (modelFreeDisplacements inp) s := by
    intro s hs
    unfold modelDisplacements
    have hbound : (modelFreeDofs inp).getD s 0 < (List.replicate (modelDofCount inp) (0:ℚ)).length := by
      rw [List.length_replicate]
      refine modelFreeDofs_lt inp _ ?_
      rw [List.getD_eq_getElem _ _ hs]
      exact List.getElem_mem _
    have h := scatterFrom_mem (modelFreeDisplacements inp) 0 (modelFreeDofs inp)
      (List.replicate (modelDofCount inp) 0) (modelFreeDofs_nodup inp) s hs hbound
    rw [h, Nat.zero_add]
  have hd_zero : ∀ j, j ∉ modelFreeDofs inp → getv (modelDisplacements inp) j = 0 := by
    intro j hj
    unfold modelDisplacements
    rw [scatterFrom_not_mem _ _ _ _ _ hj]
    unfold getv
    exact getD_replicate_zero _ _
  rw [hentry i hiN]
  have hsum : sumIdx (modelDofCount inp)
      (fun j => modelK inp i j * getv (modelDisplacements inp) j) = modelF inp i := by
    unfold sumIdx
    rw [sum_over_list (modelDofCount inp) (modelFreeDofs inp)
      (fun j => modelK inp i j * getv (modelDisplacements inp) j)
      (modelFreeDofs_nodup inp) (modelFreeDofs_lt inp)
      (fun j _ hj => by dsimp only; rw [hd_zero j hj, mul_zero])]
    have hcongr : ∀ s ∈ Finset.range (modelFreeDofs inp).length,
        modelK inp i ((modelFreeDofs inp).getD s 0)
            * getv (modelDisplacements inp) ((modelFreeDofs inp).getD s 0)
          = getm (modelReducedK inp) t s * getv (modelFreeDisplacements inp) s := by
      intro s hs
      rw [hd_mem s (Finset.mem_range.mp hs)]
      rw [getm_modelReducedK inp t s ht (Finset.mem_range.mp hs), htd]
    rw [Finset.sum_congr rfl hcongr]
    rw [hfd]
    rw [hsolve t ht]
    rw [getv_modelReducedF inp t ht, htd]
  rw [hsum, sub_self]

/-! Helper lemmas about the solver stage guard and concrete inputs. -/

theorem freeDisplacements_empty_iff (inp : BeamInput) :
    modelFreeDisplacements inp = [] ↔ modelFreeDofs inp = [] := by
  constructor
  · intro h
    by_contra hne
    have hpos : 0 < (modelFreeDofs inp).length := List.length_pos.mpr hne
    have hfd : modelFreeDisplacements inp
        = solveLinearSystem (modelReducedK inp) (modelReducedF inp) := by
      unfold modelFreeDisplacements
      rw [if_pos hpos]
    have hlen := congrArg List.length (hfd.symm.trans h)
    rw [solveLinearSystem_length, modelReducedF_length] at hlen
    simp only [List.length_nil] at hlen
    omega
  · intro h
    unfold modelFreeDisplacements
    rw [h]
    simp

theorem freeDofs_of_no_supports (inp : BeamInput) (hsup : inp.supports = []) :
    modelFreeDofs inp ≠ []
    ∧ modelFreeDisplacements inp
        = solveLinearSystem (modelReducedK inp) (modelReducedF inp) := by
  have hcon : modelConstrained inp = ∅ := by
    unfold modelConstrained
    rw [hsup]
    rfl
  have h0 : (0 : ℚ) ∈ modelNodePositions inp := by
    rw [modelNodePositions, mem_uniqueSorted]
    simp
  have hN : 0 < modelDofCount inp := by
    unfold modelDofCount
    have := List.length_pos.mpr (List.ne_nil_of_mem h0)
    omega
  have hmem : 0 ∈ modelFreeDofs inp := by
    unfold modelFreeDofs
    rw [hcon]
    simp [hN]
  have hne := List.ne_nil_of_mem hmem
  refine ⟨hne, ?_⟩
  unfold modelFreeDisplacements
  rw [if_pos (List.length_pos.mpr hne)]

/-- C2 counterexample: on an input with no supports (every DOF free) the
solver stage does not return the empty vector. -/
theorem freeDisplacements_counterexample :
    modelConstrained exNoSupports = ∅ ∧ modelFreeDisplacements exNoSupports ≠ [] := by
  refine ⟨rfl, fun hc => ?_⟩
  exact (freeDofs_of_no_supports exNoSupports rfl).1
    ((freeDisplacements_empty_iff exNoSupports).mp hc)

/-- C2 amended: the linear-solver stage returns the empty vector exactly
when no free DOF remains (every DOF constrained); when no supports are
present every DOF is free and the solver is invoked on the full system. -/
theorem freeDisplacements_spec (inp : BeamInput) :
    (modelFreeDisplacements inp = [] ↔ modelFreeDofs inp = [])
    ∧ (inp.supports = [] → modelFreeDofs inp ≠ []
        ∧ modelFreeDisplacements inp
            = solveLinearSystem (modelReducedK inp) (modelReducedF inp)) :=
  ⟨freeDisplacements_empty_iff inp, freeDofs_of_no_supports inp⟩

/-- Witness for C2 (amended) at the support-free input. -/
theorem freeDisplacements_spec_witness :
    (modelFreeDisplacements exNoSupports = [] ↔ modelFreeDofs exNoSupports = [])
    ∧ modelFreeDofs exNoSupports ≠ [] :=
  ⟨(freeDisplacements_spec exNoSupports).1,
   ((freeDisplacements_spec exNoSupports).2 rfl).1⟩

theorem exRoller_reducedK :
    modelReducedK exRoller = [[4, -6, 2], [-6, 12, -6], [2, -6, 4]]
    ∧ modelReducedF exRoller = [0, 0, 0]
    ∧ modelFreeDofs exRoller = [1, 2, 3] := by
  refine ⟨?_, ?_, ?_⟩ <;>
    norm_num [modelReducedK, modelReducedF, modelK, modelF, modelKF, elementStep,
      scatterElement, addK, dofMap, getm, getv, beamElementStiffness, udlForElement,
      elementFUpdate, modelFreeDofs, modelConstrained, modelDofCount, modelNodePositions,
      exRoller, uniqueSorted, List.dedup, List.insertionSort, List.orderedInsert,
      List.findIdx?_cons, List.range_succ, List.filter]

theorem roller_zero_pivot :
    ¬ NoZeroPivot [[(4 : ℚ), -6, 2], [-6, 12, -6], [2, -6, 4]] [0, 0, 0] := by
  intro h
  have h2 := h 2 (by norm_num)
  apply h2
  norm_num [stepPivot, elimState, elimStep, pivotRow, swapIdx, mapIdxFrom, getm, getv,
    List.range_succ, List.range']

/-- C1: on a singular system the solver substitutes the `1e-12` epsilon
pivot and returns a numeric vector instead of failing: the 1 by 1 zero
system gets the answer `[1e12]`, and the beam with a single roller
support meets a zero pivot yet still receives a numeric solution. -/
theorem solver_epsilon_no_failure :
    solveLinearSystem [[0]] [1] = [10 ^ 12]
    ∧ ¬ NoZeroPivot [[(0 : ℚ)]] [1]
    ∧ ¬ NoZeroPivot (modelReducedK exRoller) (modelReducedF exRoller)
    ∧ modelFreeDisplacements exRoller ≠ [] := by
  refine ⟨?_, ?_, ?_, ?_⟩
  · norm_num [solveLinearSystem, elimState, elimStep, pivotRow, swapIdx, mapIdxFrom,
      getm, getv, List.range_succ, List.range']
  · intro h
    have h2 := h 0 (by norm_num)
    apply h2
    norm_num [stepPivot, elimState, pivotRow, getm, List.range']
  · rw [exRoller_reducedK.1, exRoller_reducedK.2.1]
    exact roller_zero_pivot
  · intro hc
    have h2 := (freeDisplacements_empty_iff exRoller).mp hc
    rw [exRoller_reducedK.2.2] at h2
    simp at h2

theorem exPinnedRoller_reduced :
    modelReducedK exPinnedRoller = [[4, 2], [2, 4]]
    ∧ modelReducedF exPinnedRoller = [0, 0]
    ∧ modelFreeDofs exPinnedRoller = [1, 3] := by
  refine ⟨?_, ?_, ?_⟩ <;>
    norm_num [modelReducedK, modelReducedF, modelK, modelF, modelKF, elementStep,
      scatterElement, addK, dofMap, getm, getv, beamElementStiffness, udlForElement,
      elementFUpdate, modelFreeDofs, modelConstrained, modelDofCount, modelNodePositions,
      exPinnedRoller, uniqueSorted, List.dedup, List.insertionSort, List.orderedInsert,
      List.findIdx?_cons, List.range_succ, List.filter]

theorem exPinnedRoller_noZeroPivot :
    NoZeroPivot (modelReducedK exPinnedRoller) (modelReducedF exPinnedRoller) := by
  rw [exPinnedRoller_reduced.1, exPinnedRoller_reduced.2.1]
  intro i hi
  have hi2 : i < 2 := by simpa using hi
  interval_cases i <;>
    norm_num [stepPivot, elimState, elimStep, pivotRow, swapIdx, mapIdxFrom, getm, getv,
      List.range_succ, List.range']

/-- Witness for C6: the pinned-roller beam has a nonsingular reduced
system, and the reaction at the free rotational DOF 1 is exactly zero. -/
theorem reactions_spec_witness :
    getv (modelReactions exPinnedRoller) 1 = 0 :=
  (reactions_spec exPinnedRoller).2 exPinnedRoller_noZeroPivot 1
    (by rw [exPinnedRoller_reduced.2.2]; simp)

/-- C3: an input with negative span raises no invalid-geometry failure:
the mesh builder happily returns the nodes `[-1, 0]` and the analysis
produces a fully populated (degenerate) numeric result. -/
theorem negSpan_no_failure :
    modelNodePositions exNegSpan = [-1, 0]
    ∧ modelDisplacements exNegSpan = [0, 0, 0, 0]
    ∧ modelReactions exNegSpan = [0, 0, 0, 0] := by
  refine ⟨?_, ?_, ?_⟩ <;>
    norm_num [modelReactions, modelDisplacements, modelFreeDisplacements, sumIdx,
      solveLinearSystem, elimState, elimStep, pivotRow, swapIdx, mapIdxFrom, scatterFrom,
      modelReducedK, modelReducedF, modelK, modelF, modelKF, elementStep,
      scatterElement, addK, dofMap, getm, getv, beamElementStiffness, udlForElement,
      elementFUpdate, modelFreeDofs, modelConstrained, modelDofCount, modelNodePositions,
      exNegSpan, uniqueSorted, List.dedup, List.insertionSort, List.orderedInsert,
      List.findIdx?_cons, List.range_succ, List.range', List.filter, List.replicate,
      Finset.sum_range_succ, Finset.sum_range_zero]

/-! Frame lemmas for the heap-model solver. -/

theorem hread_hwrite_ne (h : Heap) (r q : ℕ) (v : Vec) (hne : r ≠ q) :
    hread (hwrite h r v) q = hread h q := by
  unfold hread hwrite
  exact getD_set_ne _ _ _ _ _ hne

theorem pivotRowH_ge (h : Heap) (rows : List ℕ) (i n : ℕ) : i ≤ pivotRowH h rows i n := by
  unfold pivotRowH
  apply foldl_preserve (fun acc => i ≤ acc)
  · exact le_rfl
  · intro acc k hk hacc
    split
    · exact le_of_lt (lt_of_lt_of_le (Nat.lt_succ_self i) (List.mem_range'_1.mp hk).1)
    · exact hacc

theorem pivotRowH_lt (h : Heap) (rows : List ℕ) (i n : ℕ) (hi : i < n) :
    pivotRowH h rows i n < n := by
  unfold pivotRowH
  apply foldl_preserve (fun acc => acc < n)
  · exact hi
  · intro acc k hk hacc
    split
    · have := (List.mem_range'_1.mp hk).2
      omega
    · exact hacc

theorem elimStepH_frame (n N : ℕ) (st : (List ℕ × ℕ) × Heap) (i : ℕ)
    (hrows : ∀ r ∈ st.1.1, N ≤ r) (hbref : N ≤ st.1.2)
    (hlen : st.1.1.length = n) (hi : i < n) :
    (∀ r ∈ (elimStepH n st i).1.1, N ≤ r)
    ∧ (elimStepH n st i).1.2 = st.1.2
    ∧ (elimStepH n st i).1.1.length = n
    ∧ ∀ q, q < N → hread (elimStepH n st i).2 q = hread st.2 q := by
  obtain ⟨⟨rows0, bref⟩, h0⟩ := st
  dsimp only at hrows hbref hlen
  set m := pivotRowH h0 rows0 i n with hmdef
  set rows := if m = i then rows0 else swapIdx rows0 i m with hrowsdef
  set h1 := if m = i then h0 else hwrite h0 bref (swapIdx (hread h0 bref) i m) with h1def
  set P := if getmH h1 rows i i = 0 then (1 : ℚ) / 10 ^ 12 else getmH h1 rows i i with hPdef
  set ri := rows.getD i 0 with hridef
  set h2 := hwrite h1 ri
    (mapIdxFrom (fun j v => if i ≤ j then v / P else v) 0 (hread h1 ri)) with h2def
  set h3 := hwrite h2 bref
    ((hread h2 bref).set i ((hread h2 bref).getD i 0 / P)) with h3def
  set h4 := (List.range n).foldl
    (fun h k =>
      if k = i then h
      else
        let factor := getmH h rows k i
        let rk := rows.getD k 0
        let ha := hwrite h rk
          (mapIdxFrom (fun j v => if i ≤ j then v - factor * getmH h rows i j else v) 0
            (hread h rk))
        hwrite ha bref
          ((hread ha bref).set k ((hread ha bref).getD k 0 - factor * (hread ha bref).getD i 0)))
    h3 with h4def
  have hstep : elimStepH n ((rows0, bref), h0) i = ((rows, bref), h4) := rfl
  rw [hstep]
  have hrows' : ∀ r ∈ rows, N ≤ r := by
    rw [hrowsdef]
    split
    · exact hrows
    · intro r hr
      exact hrows r (mem_swapIdx (hlen ▸ hi) (hlen ▸ pivotRowH_lt h0 rows0 i n hi) hr)
  have hlen' : rows.length = n := by
    rw [hrowsdef]
    split
    · exact hlen
    · rw [length_swapIdx]
      exact hlen
  have hframe1 : ∀ q, q < N → hread h1 q = hread h0 q := by
    intro q hq
    rw [h1def]
    split
    · rfl
    · exact hread_hwrite_ne _ _ _ _ (by omega)
  have hriN : N ≤ ri := by
    apply hrows'
    rw [hridef, List.getD_eq_getElem _ _ (hlen' ▸ hi)]
    exact List.getElem_mem _
  have hframe2 : ∀ q, q < N → hread h2 q = hread h1 q := by
    intro q hq
    exact hread_hwrite_ne _ _ _ _ (by omega)
  have hframe3 : ∀ q, q < N → hread h3 q = hread h2 q := by
    intro q hq
    exact hread_hwrite_ne _ _ _ _ (by omega)
  have hframe4 : ∀ q, q < N → hread h4 q = hread h3 q := by
    rw [h4def]
    apply foldl_preserve (fun hh : Heap => ∀ q, q < N → hread hh q = hread h3 q)
    · intro q _
      rfl
    · intro hh k hk hinv q hq
      have hkn : k < n := List.mem_range.mp hk
      split
      · exact hinv q hq
      · have hrkN : N ≤ rows.getD k 0 := by
          apply hrows'
          rw [List.getD_eq_getElem _ _ (hlen' ▸ hkn)]
          exact List.getElem_mem _
        rw [hread_hwrite_ne _ _ _ _ (by omega), hread_hwrite_ne _ _ _ _ (by omega)]
        exact hinv q hq
  exact ⟨hrows', rfl, hlen', fun q hq => by
    rw [hframe4 q hq, hframe3 q hq, hframe2 q hq, hframe1 q hq]⟩

/-- C10: the heap-model solver copies the matrix rows and the vector into
freshly allocated cells and mutates only those, so every pre-existing heap
cell - in particular each caller matrix row and the caller vector - holds
the same value after the call as before. -/
theorem solveLinearSystemH_frame (h : Heap) (mrows : List ℕ) (vref : ℕ)
    (hsq : mrows.length = (hread h vref).length)
    (hvalid : ∀ r ∈ mrows, r < h.length) (hvref : vref < h.length) :
    (∀ q, q < h.length → hread (solveLinearSystemH h mrows vref).1 q = hread h q)
    ∧ mrows.map (fun r => hread (solveLinearSystemH h mrows vref).1 r)
        = mrows.map (fun r => hread h r)
    ∧ hread (solveLinearSystemH h mrows vref).1 vref = hread h vref := by
  have hmain : ∀ q, q < h.length →
      hread (solveLinearSystemH h mrows vref).1 q = hread h q := by
    intro q hq
    unfold solveLinearSystemH
    dsimp only
    have hinv := foldl_preserve
      (fun st : (List ℕ × ℕ) × Heap =>
        (∀ r ∈ st.1.1, h.length ≤ r) ∧ (h.length ≤ st.1.2)
          ∧ (st.1.1.length = (hread h vref).length)
          ∧ ∀ p, p < h.length → hread st.2 p = hread h p)
      (elimStepH (hread h vref).length)
      (List.range (hread h vref).length)
      (((List.range mrows.length).map (fun t => h.length + t), h.length + mrows.length),
        h ++ mrows.map (fun r => hread h r) ++ [hread h vref])
      ?_ ?_
    · exact hinv.2.2.2 q hq
    · refine ⟨?_, ?_, ?_, ?_⟩
      · intro r hr
        obtain ⟨t, _, rfl⟩ := List.mem_map.mp hr
        exact Nat.le_add_right _ _
      · exact Nat.le_add_right _ _
      · rw [List.length_map, List.length_range]
        exact hsq
      · intro p hp
        unfold hread
        rw [List.append_assoc, List.getD_append _ _ _ _ hp]
    · intro st k hk hst
      obtain ⟨h1, h2, h3, h4⟩ :=
        elimStepH_frame (hread h vref).length h.length st k hst.1 hst.2.1
          ((hst.2.2.1)) (List.mem_range.mp hk)
      refine ⟨h1, ?_, h3, fun p hp => (h4 p hp).trans (hst.2.2.2 p hp)⟩
      rw [h2]
      exact hst.2.1
  refine ⟨hmain, ?_, hmain vref hvref⟩
  refine List.map_congr_left ?_
  intro r hr
  exact hmain r (hvalid r hr)

/-- Witness for C10 on a concrete two-cell heap: the caller row cell `0`
and vector cell `1` are unchanged by the call. -/
theorem solveLinearSystemH_frame_witness :
    hread (solveLinearSystemH [[(2 : ℚ)], [5]] [0] 1).1 0 = hread [[(2 : ℚ)], [5]] 0
    ∧ hread (solveLinearSystemH [[(2 : ℚ)], [5]] [0] 1).1 1 = hread [[(2 : ℚ)], [5]] 1 :=
  ⟨(solveLinearSystemH_frame [[(2 : ℚ)], [5]] [0] 1 rfl (by simp) (by norm_num)).1 0
      (by norm_num),
   (solveLinearSystemH_frame [[(2 : ℚ)], [5]] [0] 1 rfl (by simp) (by norm_num)).2.2⟩
